import Mathlib

/-!
Verification of the pylazybam binary record model against its source.

Bytes are modelled as lists of natural numbers (a genuine byte string has
all entries below 256).  Python functions that can raise are modelled with
`Option` or `Except String`; stateful methods become explicit state
passing.  Machine integers are decoded explicitly from little-endian
bytes, with signedness handled by subtracting 2^32.
-/

namespace Pylazybam

/-- A byte string, as manipulated by the Python code.  A genuine byte
string has every entry below 256. -/
abbrev Bytes := List Nat

/-- struct.unpack of one little-endian signed 32-bit integer ("<i").
Python raises struct.error unless exactly four bytes are supplied,
modelled by `none`. -/
def unpackI32 : Bytes → Option Int
  | [b0, b1, b2, b3] =>
    let u : Nat := b0 + 256 * b1 + 65536 * b2 + 16777216 * b3
    some (if u < 2 ^ 31 then (u : Int) else (u : Int) - 2 ^ 32)
  | _ => none

/-- The four little-endian bytes of a signed 32-bit integer (the payload
of struct.pack "<i" after its range check). -/
def i32Bytes (n : Int) : Bytes :=
  let u := (n % 2 ^ 32).toNat
  [u % 256, u / 256 % 256, u / 65536 % 256, u / 16777216 % 256]

/-- struct.pack "<i": struct.error outside the representable range. -/
def packI32 (n : Int) : Except String Bytes :=
  if -(2 ^ 31) ≤ n ∧ n < 2 ^ 31 then .ok (i32Bytes n)
  else .error "struct.error: argument out of range"

/-- Python file.read(k): returns up to k bytes (fewer at end of stream,
empty once exhausted); a negative count reads to the end of the stream.
The result pairs the bytes read with the remaining stream. -/
def pyRead (k : Int) (bs : Bytes) : Bytes × Bytes :=
  if k < 0 then (bs, []) else (bs.take k.toNat, bs.drop k.toNat)

/-- Python slicing l[a:b] for nonnegative bounds. -/
def pySlice (l : Bytes) (a b : Nat) : Bytes := (l.take b).drop a

theorem pyRead_append (k : Int) (bs : Bytes) :
    (pyRead k bs).1 ++ (pyRead k bs).2 = bs := by
  unfold pyRead
  split
  · simp
  · simp

theorem pyRead_snd_length (k : Int) (bs : Bytes) :
    (pyRead k bs).2.length ≤ bs.length := by
  unfold pyRead
  split
  · simp
  · simp

theorem pyRead_neg (k : Int) (hk : k < 0) (l : Bytes) : pyRead k l = (l, []) := by
  unfold pyRead
  rw [if_pos hk]

theorem pyRead_nonneg_parts (k : Int) (hk : 0 ≤ k) (l : Bytes) :
    pyRead k l = (l.take k.toNat, l.drop k.toNat) := by
  unfold pyRead
  rw [if_neg (by omega)]

theorem unpackI32_i32Bytes (n : Int) (h0 : 0 ≤ n) (h1 : n < 2 ^ 31) :
    unpackI32 (i32Bytes n) = some n := by
  unfold unpackI32 i32Bytes
  have hmod : n % 2 ^ 32 = n := Int.emod_eq_of_lt h0 (by omega)
  rw [hmod]
  have hn : ((n.toNat : Int)) = n := Int.toNat_of_nonneg h0
  have hlt : n.toNat < 2 ^ 31 := by omega
  simp only [Option.some.injEq]
  have : n.toNat % 256 + 256 * (n.toNat / 256 % 256) + 65536 * (n.toNat / 65536 % 256)
      + 16777216 * (n.toNat / 16777216 % 256) = n.toNat := by omega
  rw [this]
  rw [if_pos hlt]
  exact hn

-- ------------------------------------------------------------------
-- bam.py fixed-offset field accessors (the one needed by the claims)
-- ------------------------------------------------------------------

/-- bam.get_pos: struct.unpack("<i", alignment[8:12]).  Python slicing
returns fewer than four bytes when the record is shorter than twelve
bytes, in which case struct.unpack raises (`none`). -/
def get_pos (alignment : Bytes) : Option Int :=
  unpackI32 ((alignment.drop 8).take 4)

-- ------------------------------------------------------------------
-- decoders.py
-- ------------------------------------------------------------------

/-- The fixed 16-symbol alphabet "=ACMGRSVTWYHKDBN" of decode_sequence. -/
def bam_bases : List Char :=
  ['=', 'A', 'C', 'M', 'G', 'R', 'S', 'V', 'T', 'W', 'Y', 'H', 'K', 'D', 'B', 'N']

/-- decoders.decode_sequence: each byte contributes bam_bases[x >> 4] then
bam_bases[x & 0b1111], in input order.  array("B", raw_seq) guarantees
every element is below 256, so both nibbles are below 16 and the `getD`
default is never consulted on byte input. -/
def decode_sequence : Bytes → List Char
  | [] => []
  | x :: rest =>
    bam_bases.getD (x >>> 4) '?' :: bam_bases.getD (x &&& 15) '?' :: decode_sequence rest

/-- The operation-code alphabet "MIDNSHP=X" of decode_cigar. -/
def cigar_codes : List Char := ['M', 'I', 'D', 'N', 'S', 'H', 'P', '=', 'X']

/-- decoders.decode_cigar: array("I", raw_cigar) raises ValueError unless
the length is a multiple of four (modelled by `none`); each four-byte
little-endian unsigned integer x contributes str(x >> 4) followed by
codes[x & 0b1111].  Indexing codes with a nibble above 8 raises
IndexError in Python, also modelled by `none`. -/
def decode_cigar : Bytes → Option (List Char)
  | [] => some []
  | b0 :: b1 :: b2 :: b3 :: rest =>
    let x := b0 + 256 * b1 + 65536 * b2 + 16777216 * b3
    match cigar_codes[x &&& 15]?, decode_cigar rest with
    | some c, some tail => some ((Nat.repr (x >>> 4)).toList ++ c :: tail)
    | _, _ => none
  | _ => none

/-- The little-endian 32-bit words of a raw cigar byte string, as the spec
describes them: word i spans bytes 4i..4i+3. -/
def cigarWords (raw : Bytes) : List Nat :=
  (List.range (raw.length / 4)).map (fun i =>
    raw.getD (4 * i) 0 + 256 * raw.getD (4 * i + 1) 0
      + 65536 * raw.getD (4 * i + 2) 0 + 16777216 * raw.getD (4 * i + 3) 0)

theorem cigarWords_nil : cigarWords [] = [] := by
  simp [cigarWords]

theorem cigarWords_cons4 (b0 b1 b2 b3 : Nat) (rest : Bytes) :
    cigarWords (b0 :: b1 :: b2 :: b3 :: rest) =
      (b0 + 256 * b1 + 65536 * b2 + 16777216 * b3) :: cigarWords rest := by
  unfold cigarWords
  have hlen : (b0 :: b1 :: b2 :: b3 :: rest).length / 4 = rest.length / 4 + 1 := by
    simp [List.length_cons]
    omega
  rw [hlen, List.range_succ_eq_map]
  simp only [List.map_cons, List.map_map]
  congr 1

theorem getElem?_eq_some_getD (l : List Char) (i : Nat) (d : Char) (h : i < l.length) :
    l[i]? = some (l.getD i d) := by
  rw [List.getElem?_eq_getElem h, List.getD_eq_getElem l d h]

/-- C2 (code bug evaluation): on the known fixture record the little-endian
signed 32-bit integer stored at byte offset 8 is 133186149, and get_pos
returns exactly this stored value — not the stored value plus one that the
one-based-position contract (and the function docstring) promises. -/
theorem get_pos_returns_stored_value_unshifted :
    unpackI32 [101, 66, 240, 7] = some 133186149 ∧
    get_pos [18, 1, 0, 0, 12, 0, 0, 0, 101, 66, 240, 7] = some 133186149 ∧
    get_pos [18, 1, 0, 0, 12, 0, 0, 0, 101, 66, 240, 7] ≠ some (133186149 + 1) := by
  refine ⟨by decide, by decide, by decide⟩

/-- C3: decode_sequence maps each byte to two characters of the alphabet
"=ACMGRSVTWYHKDBN", high nibble first then low nibble, in input order; the
output length is exactly twice the number of input bytes, so for an odd
sequence length the trailing extra character is produced (to be discarded
by the caller). -/
theorem decode_sequence_two_chars_per_byte (raw : Bytes) (hb : ∀ b ∈ raw, b < 256) :
    (decode_sequence raw).length = 2 * raw.length ∧
    ∀ i, i < raw.length →
      (decode_sequence raw)[2 * i]? = bam_bases[raw.getD i 0 >>> 4]? ∧
      (decode_sequence raw)[2 * i + 1]? = bam_bases[raw.getD i 0 &&& 15]? := by
  induction raw with
  | nil =>
    refine ⟨rfl, ?_⟩
    intro i hi
    simp at hi
  | cons x rest ih =>
    obtain ⟨ihlen, ihidx⟩ := ih (fun b hmem => hb b (List.mem_cons_of_mem _ hmem))
    have hx : x < 256 := hb x (List.mem_cons_self _ _)
    have h1 : x >>> 4 < 16 := by
      rw [Nat.shiftRight_eq_div_pow]
      omega
    have h2 : x &&& 15 < 16 := lt_of_le_of_lt Nat.and_le_right (by norm_num)
    have hbases : bam_bases.length = 16 := by decide
    constructor
    · simp only [decode_sequence, List.length_cons, ihlen]
      ring
    · intro i hi
      cases i with
      | zero =>
        refine ⟨?_, ?_⟩
        · show (decode_sequence (x :: rest))[0]? = _
          simp only [decode_sequence, List.getElem?_cons_zero, List.getD_cons_zero]
          rw [getElem?_eq_some_getD bam_bases _ '?' (by omega)]
        · show (decode_sequence (x :: rest))[1]? = _
          simp only [decode_sequence, List.getElem?_cons_succ, List.getElem?_cons_zero,
            List.getD_cons_zero]
          rw [getElem?_eq_some_getD bam_bases _ '?' (by omega)]
      | succ j =>
        have hj : j < rest.length := by
          simp only [List.length_cons] at hi
          omega
        obtain ⟨ha, hc⟩ := ihidx j hj
        have e1 : 2 * (j + 1) = 2 * j + 1 + 1 := by ring
        have e2 : 2 * (j + 1) + 1 = 2 * j + 1 + 1 + 1 := by ring
        refine ⟨?_, ?_⟩
        · rw [e1]
          simp only [decode_sequence, List.getElem?_cons_succ, List.getD_cons_succ]
          exact ha
        · rw [e2]
          simp only [decode_sequence, List.getElem?_cons_succ, List.getD_cons_succ]
          exact hc

/-- Witness for decode_sequence_two_chars_per_byte at the byte string
[0x48, 0x42] (first two packed bytes of the test fixture, decoding to
"GTGC"). -/
theorem decode_sequence_two_chars_per_byte_witness :
    (∀ b ∈ ([72, 66] : Bytes), b < 256) ∧
    ((decode_sequence [72, 66]).length = 2 * ([72, 66] : Bytes).length ∧
    ∀ i, i < ([72, 66] : Bytes).length →
      (decode_sequence [72, 66])[2 * i]? = bam_bases[([72, 66] : Bytes).getD i 0 >>> 4]? ∧
      (decode_sequence [72, 66])[2 * i + 1]? = bam_bases[([72, 66] : Bytes).getD i 0 &&& 15]?) :=
  ⟨by decide, decode_sequence_two_chars_per_byte [72, 66] (by decide)⟩

/-- C4 counterexample: the four-byte string [9, 0, 0, 0] has length a
multiple of four, its single little-endian word is 9 with lower four bits
9, and decode_cigar does not return any concatenation for it: indexing
"MIDNSHP=X" (nine characters) at 9 raises IndexError, so the result is
`none`. -/
theorem decode_cigar_index_error_on_nibble_nine :
    ([9, 0, 0, 0] : Bytes).length % 4 = 0 ∧
    cigarWords [9, 0, 0, 0] = [9] ∧
    (9 : Nat) &&& 15 = 9 ∧
    decode_cigar [9, 0, 0, 0] = none := by
  refine ⟨by decide, by decide, by decide, by decide⟩


theorem cigar_codes_getElem? (j : Nat) (hj : j ≤ 8) :
    cigar_codes[j]? = some (cigar_codes.getD j '?') := by
  apply getElem?_eq_some_getD
  have h9 : cigar_codes.length = 9 := rfl
  omega

/-- C4 (amended): for every raw cigar byte string whose length is a
multiple of 4 and whose every little-endian 32-bit word has lower four
bits at most 8 (a valid index into "MIDNSHP=X"), decode_cigar returns the
concatenation, over the words in order, of the decimal representation of
the upper 28 bits followed by the operation code character, with no
separators. -/
theorem decode_cigar_concatenation (raw : Bytes) (h4 : raw.length % 4 = 0)
    (hop : ∀ w ∈ cigarWords raw, w &&& 15 ≤ 8) :
    decode_cigar raw =
      some (((cigarWords raw).map
        (fun w => (Nat.repr (w >>> 4)).toList ++ [cigar_codes.getD (w &&& 15) '?'])).flatten) := by
  induction raw using decode_cigar.induct with
  | case1 =>
    simp [decode_cigar, cigarWords_nil]
  | case2 b0 b1 b2 b3 rest x c tail hdec hcode ih =>
    rw [cigarWords_cons4] at hop ⊢
    have hw : x &&& 15 ≤ 8 := hop _ (List.mem_cons_self _ _)
    have h4r : rest.length % 4 = 0 := by
      simp only [List.length_cons] at h4
      omega
    have ihe := ih h4r (fun w hmem => hop w (List.mem_cons_of_mem _ hmem))
    have hcval : c = cigar_codes.getD (x &&& 15) '?' := by
      have hx := cigar_codes_getElem? (x &&& 15) hw
      rw [hcode] at hx
      exact Option.some.inj hx
    rw [hdec] at ihe
    have htl := Option.some.inj ihe
    simp only [decode_cigar, hcode, hdec]
    simp only [List.map_cons, List.flatten_cons, Option.some.injEq]
    rw [hcval, htl]
    simp
  | case3 b0 b1 b2 b3 rest x hnone ih =>
    exfalso
    rw [cigarWords_cons4] at hop
    have hw : x &&& 15 ≤ 8 := hop _ (List.mem_cons_self _ _)
    have h4r : rest.length % 4 = 0 := by
      simp only [List.length_cons] at h4
      omega
    have ihe := ih h4r (fun w hmem => hop w (List.mem_cons_of_mem _ hmem))
    exact hnone _ _ (cigar_codes_getElem? _ hw) ihe
  | case4 l h1 h2 =>
    exfalso
    match l, h4, h1, h2 with
    | [], _, h1, _ => exact h1 rfl
    | [a], h4, _, _ => simp at h4
    | [a, b], h4, _, _ => simp at h4
    | [a, b, c], h4, _, _ => simp at h4
    | a :: b :: c :: d :: rest, _, _, h2 => exact h2 a b c d rest rfl

/-- Witness for decode_cigar_concatenation at the fixture cigar bytes
[0x30, 6, 0, 0, 0x14, 0, 0, 0], which decode to "99M1S". -/
theorem decode_cigar_concatenation_witness :
    ([48, 6, 0, 0, 20, 0, 0, 0] : Bytes).length % 4 = 0 ∧
    (∀ w ∈ cigarWords [48, 6, 0, 0, 20, 0, 0, 0], w &&& 15 ≤ 8) ∧
    decode_cigar [48, 6, 0, 0, 20, 0, 0, 0] =
      some (((cigarWords [48, 6, 0, 0, 20, 0, 0, 0]).map
        (fun w => (Nat.repr (w >>> 4)).toList ++ [cigar_codes.getD (w &&& 15) '?'])).flatten) ∧
    decode_cigar [48, 6, 0, 0, 20, 0, 0, 0] = some ['9', '9', 'M', '1', 'S'] :=
  ⟨by decide, by decide,
    decode_cigar_concatenation [48, 6, 0, 0, 20, 0, 0, 0] (by decide) (by decide),
    by decide⟩

-- ------------------------------------------------------------------
-- tags.py
-- ------------------------------------------------------------------

/-- The prefix of a byte string before its first NUL byte, paired with the
bytes after that NUL; `none` when there is no NUL.  Models the regular
expression fragment [^\x00]+\x00: the greedy character class cannot cross
a NUL, so the matched run always extends to just before the first NUL. -/
def splitAtNul : Bytes → Option (Bytes × Bytes)
  | [] => none
  | b :: rest =>
    if b = 0 then some ([], rest)
    else
      match splitAtNul rest with
      | some (r, a) => some (b :: r, a)
      | none => none

theorem splitAtNul_spec (l : Bytes) : ∀ (r a : Bytes), splitAtNul l = some (r, a) →
    l = r ++ 0 :: a ∧ ∀ b ∈ r, b ≠ 0 := by
  induction l with
  | nil => intro r a h; simp [splitAtNul] at h
  | cons b rest ih =>
    intro r a h
    simp only [splitAtNul] at h
    by_cases hb : b = 0
    · rw [if_pos hb] at h
      injection h with h2
      injection h2 with hr ha
      subst hr
      subst ha
      refine ⟨by simp [hb], by simp⟩
    · rw [if_neg hb] at h
      cases hsp : splitAtNul rest with
      | none => rw [hsp] at h; exact absurd h (by simp)
      | some p =>
        obtain ⟨r1, a1⟩ := p
        rw [hsp] at h
        injection h with h2
        injection h2 with hr ha
        obtain ⟨he, hz⟩ := ih r1 a1 hsp
        subst ha
        subst he
        rw [← hr]
        refine ⟨by simp, ?_⟩
        intro x hx
        rcases List.mem_cons.mp hx with h1 | h2x
        · subst h1; exact hb
        · exact hz x h2x

/-- True when the optional byte is present and is not a newline: the
regular-expression wildcard "." under Python's default (non-DOTALL)
semantics. -/
def isDotByte : Option Nat → Bool
  | some c => c ≠ 10
  | none => false

/-- re.findall of the byte pattern pat3 + "." (a three-byte literal
followed by any byte other than newline), scanning left to right without
overlap: on a match the scan resumes after the four matched bytes, else it
advances one byte.  Models the tag + b"C." search of tags.get_int_tag. -/
def findallSigC (pat3 : Bytes) : Bytes → List Bytes
  | [] => []
  | b :: rest =>
    if (b :: rest).take 3 = pat3 ∧ isDotByte rest[2]? then
      (b :: rest).take 4 :: findallSigC pat3 (rest.drop 3)
    else
      findallSigC pat3 rest
termination_by l => l.length
decreasing_by
  · simp only [List.length_cons, List.length_drop]
    omega
  · simp only [List.length_cons]
    omega

/-- re.findall of the byte pattern pat3 + "[^\x00]+\x00", scanning left to
right without overlap; on a match the scan resumes after the terminating
NUL.  Models the tag + b"Z[^\x00]+\x00" search of tags.get_str_tag. -/
def findallStrZ (pat3 : Bytes) : Bytes → List Bytes
  | [] => []
  | b :: rest =>
    match h : splitAtNul (rest.drop 2) with
    | some (run, after) =>
      if (b :: rest).take 3 = pat3 ∧ run ≠ [] then
        (pat3 ++ run ++ [0]) :: findallStrZ pat3 after
      else
        findallStrZ pat3 rest
    | none => findallStrZ pat3 rest
termination_by l => l.length
decreasing_by
  · have hsp := (splitAtNul_spec _ _ _ h).1
    have hlen : (rest.drop 2).length = run.length + 1 + after.length := by
      rw [hsp]
      simp only [List.length_append, List.length_cons]
      omega
    simp only [List.length_cons, List.length_drop] at hlen ⊢
    omega
  · simp only [List.length_cons]
    omega
  · simp only [List.length_cons]
    omega

/-- Shared stand-in for the ValueError message both tag extractors raise
when the signature matches more than once. -/
def tagAmbiguityMsg : String := "ValueError: more than one match"

/-- Shared stand-in for the ValueError message raised when the tag
argument is not exactly two bytes. -/
def tagLengthMsg : String := "ValueError: Tags must be two bytes"

/-- tags.get_int_tag: scan for tag + b"C." ; no match returns the default,
one match decodes its fourth byte as an unsigned integer
(struct.unpack "<xxxB"), more than one raises ValueError. -/
def get_int_tag (tag_bytes tag : Bytes) (no_tag : Int) : Except String Int :=
  if tag.length ≠ 2 then .error tagLengthMsg
  else
    match findallSigC (tag ++ [67]) tag_bytes with
    | [] => .ok no_tag
    | [m] => .ok ((m.getD 3 0 : Nat) : Int)
    | _ => .error tagAmbiguityMsg

/-- A UTF-8 continuation byte: 0b10xxxxxx. -/
def isCont (b : Nat) : Bool := 128 ≤ b && b ≤ 191

/-- Strict UTF-8 validity of a byte string, exactly the well-formed
sequences of Unicode Table 3-7 (RFC 3629) accepted by Python's
bytes.decode() with the default strict error handler: overlong forms,
surrogates (ED followed by A0..BF) and code points above U+10FFFF are
rejected. -/
def validUtf8 : Bytes → Bool
  | [] => true
  | b :: rest =>
    if b < 128 then validUtf8 rest
    else if 194 ≤ b && b ≤ 223 then
      match rest with
      | c1 :: rest2 => isCont c1 && validUtf8 rest2
      | [] => false
    else if b = 224 then
      match rest with
      | c1 :: c2 :: rest2 =>
          (160 ≤ c1 && c1 ≤ 191) && isCont c2 && validUtf8 rest2
      | _ => false
    else if (225 ≤ b && b ≤ 236) || b = 238 || b = 239 then
      match rest with
      | c1 :: c2 :: rest2 => isCont c1 && isCont c2 && validUtf8 rest2
      | _ => false
    else if b = 237 then
      match rest with
      | c1 :: c2 :: rest2 =>
          (128 ≤ c1 && c1 ≤ 159) && isCont c2 && validUtf8 rest2
      | _ => false
    else if b = 240 then
      match rest with
      | c1 :: c2 :: c3 :: rest2 =>
          (144 ≤ c1 && c1 ≤ 191) && isCont c2 && isCont c3 && validUtf8 rest2
      | _ => false
    else if 241 ≤ b && b ≤ 243 then
      match rest with
      | c1 :: c2 :: c3 :: rest2 =>
          isCont c1 && isCont c2 && isCont c3 && validUtf8 rest2
      | _ => false
    else if b = 244 then
      match rest with
      | c1 :: c2 :: c3 :: rest2 =>
          (128 ≤ c1 && c1 ≤ 143) && isCont c2 && isCont c3 && validUtf8 rest2
      | _ => false
    else false

/-- The UnicodeDecodeError raised by bytes.decode() on a byte string
that is not valid UTF-8. -/
def unicodeDecodeMsg : String :=
  "UnicodeDecodeError: utf-8 codec cannot decode byte"

/-- tags.get_str_tag: scan for tag + b"Z[^\x00]+\x00"; no match returns
the default, one match takes the bytes strictly between the type marker
and the terminating NUL (match[0][3:-1]) and decodes them as strict UTF-8
(.decode(), raising UnicodeDecodeError on invalid bytes), more than one
match raises ValueError. -/
def get_str_tag (tag_bytes tag : Bytes) (no_tag : Option Bytes) :
    Except String (Option Bytes) :=
  if tag.length ≠ 2 then .error tagLengthMsg
  else
    match findallStrZ (tag ++ [90]) tag_bytes with
    | [] => .ok no_tag
    | [m] =>
        if validUtf8 ((m.drop 3).dropLast) then .ok (some ((m.drop 3).dropLast))
        else .error unicodeDecodeMsg
    | _ => .error tagAmbiguityMsg

theorem isDotByte_spec (o : Option Nat) (h : isDotByte o = true) :
    ∃ c, o = some c ∧ c ≠ 10 := by
  cases o with
  | none => simp [isDotByte] at h
  | some c =>
    refine ⟨c, rfl, ?_⟩
    simp [isDotByte] at h
    exact h

/-- Every match produced by the integer-tag scan is the three-byte
signature followed by one non-newline value byte. -/
theorem findallSigC_shape (pat3 l : Bytes) :
    ∀ m ∈ findallSigC pat3 l, m.take 3 = pat3 ∧ m.length = 4 ∧ m.getD 3 0 ≠ 10 := by
  induction l using findallSigC.induct pat3 with
  | case1 => intro m hm; simp [findallSigC] at hm
  | case2 b rest hcond ih =>
    intro m hm
    rw [findallSigC, if_pos hcond] at hm
    obtain ⟨h3, hdot⟩ := hcond
    obtain ⟨c, hc, hc10⟩ := isDotByte_spec _ hdot
    rcases List.mem_cons.mp hm with hme | hmr
    · subst hme
      match rest, hc, h3 with
      | r0 :: r1 :: r2 :: rest', hc, h3 =>
        simp only [List.getElem?_cons_succ, List.getElem?_cons_zero,
          Option.some.injEq] at hc
        subst hc
        refine ⟨?_, rfl, ?_⟩
        · rw [← h3]
          simp [List.take_take]
        · exact hc10
    · exact ih m hmr
  | case3 b rest hcond ih =>
    intro m hm
    rw [findallSigC, if_neg hcond] at hm
    exact ih m hm

theorem findallStrZ_cons_some (pat3 : Bytes) (b : Nat) (rest run after : Bytes)
    (h : splitAtNul (rest.drop 2) = some (run, after)) :
    findallStrZ pat3 (b :: rest) =
      if (b :: rest).take 3 = pat3 ∧ run ≠ [] then
        (pat3 ++ run ++ [0]) :: findallStrZ pat3 after
      else findallStrZ pat3 rest := by
  rw [findallStrZ]
  split
  next r a h2 =>
    rw [h] at h2
    injection h2 with h3
    injection h3 with hr ha
    subst hr
    subst ha
    rfl
  next h2 =>
    rw [h] at h2
    exact absurd h2 (by simp)

theorem findallStrZ_cons_none (pat3 : Bytes) (b : Nat) (rest : Bytes)
    (h : splitAtNul (rest.drop 2) = none) :
    findallStrZ pat3 (b :: rest) = findallStrZ pat3 rest := by
  rw [findallStrZ]
  split
  next r a h2 => rw [h] at h2; exact absurd h2 (by simp)
  next h2 => rfl

/-- Every match produced by the text-tag scan is the three-byte signature,
a nonempty NUL-free run, and the terminating NUL. -/
theorem findallStrZ_shape (pat3 l : Bytes) :
    ∀ m ∈ findallStrZ pat3 l,
      ∃ run, m = pat3 ++ run ++ [0] ∧ run ≠ [] ∧ ∀ b ∈ run, b ≠ 0 := by
  induction l using findallStrZ.induct pat3 with
  | case1 => intro m hm; simp [findallStrZ] at hm
  | case2 b rest run after h hcond ih =>
    intro m hm
    rw [findallStrZ_cons_some pat3 b rest run after h, if_pos hcond] at hm
    rcases List.mem_cons.mp hm with hme | hmr
    · exact ⟨run, hme, hcond.2, (splitAtNul_spec _ _ _ h).2⟩
    · exact ih m hmr
  | case3 b rest run after h hcond ih =>
    intro m hm
    rw [findallStrZ_cons_some pat3 b rest run after h, if_neg hcond] at hm
    exact ih m hm
  | case4 b rest h ih =>
    intro m hm
    rw [findallStrZ_cons_none pat3 b rest h] at hm
    exact ih m hm

theorem length_four_shape (m : Bytes) (h4 : m.length = 4) :
    ∃ a b c d, m = [a, b, c, d] := by
  match m with
  | [a, b, c, d] => exact ⟨a, b, c, d, rfl⟩
  | [] => simp at h4
  | [a] => simp at h4
  | [a, b] => simp at h4
  | [a, b, c] => simp at h4
  | a :: b :: c :: d :: e :: t =>
    simp only [List.length_cons] at h4
    omega

/-- C5, counterexample to the claimed trichotomy: on the optional-field
bytes b"MDZ\xc6x\x00" the tag "MD" has exactly one Z-signature match, yet
get_str_tag returns neither the default, nor a decoded value, nor the
ambiguity error: the value bytes [198, 120] are not valid UTF-8, so
match[0][3:-1].decode() raises UnicodeDecodeError (tags.py line 457). -/
theorem str_tag_single_match_unicode_error :
    findallStrZ ([77, 68] ++ [90]) [77, 68, 90, 198, 120, 0] =
      [([77, 68] ++ [90]) ++ [198, 120] ++ [0]] ∧
    validUtf8 [198, 120] = false ∧
    get_str_tag [77, 68, 90, 198, 120, 0] [77, 68] none =
      .error unicodeDecodeMsg ∧
    unicodeDecodeMsg ≠ tagAmbiguityMsg := by
  refine ⟨?_, ?_, ?_, ?_⟩
  · simp [findallStrZ, splitAtNul]
  · decide
  · have hv : validUtf8 [198, 120] = false := by decide
    simp [get_str_tag, findallStrZ, splitAtNul, hv]
  · decide

/-- C5 (amended): for every optional-fields byte string, two-byte tag and
caller-supplied default, get_int_tag (marker C) returns the default when
its byte signature matches zero times, the decoded unsigned byte when it
matches exactly once, and raises the ambiguity ValueError when it matches
two or more times; get_str_tag (marker Z) likewise returns the default on
zero matches and raises the ambiguity ValueError on two or more, but on
exactly one match it returns the bytes before the terminating NUL only
when they are valid UTF-8, and raises UnicodeDecodeError when they are
not; byte ranges holding the same signature twice raise the ambiguity
error for both the integer and the text variant. -/
theorem tag_lookup_outcomes (tag_bytes tag : Bytes) (no_int : Int)
    (no_str : Option Bytes) (htag : tag.length = 2) :
    ((findallSigC (tag ++ [67]) tag_bytes = [] ∧
        get_int_tag tag_bytes tag no_int = .ok no_int) ∨
      (∃ c : Nat, c ≠ 10 ∧ findallSigC (tag ++ [67]) tag_bytes = [(tag ++ [67]) ++ [c]] ∧
        get_int_tag tag_bytes tag no_int = .ok (c : Int)) ∨
      (2 ≤ (findallSigC (tag ++ [67]) tag_bytes).length ∧
        get_int_tag tag_bytes tag no_int = .error tagAmbiguityMsg)) ∧
    ((findallStrZ (tag ++ [90]) tag_bytes = [] ∧
        get_str_tag tag_bytes tag no_str = .ok no_str) ∨
      (∃ run : Bytes, run ≠ [] ∧ (∀ b ∈ run, b ≠ 0) ∧
        findallStrZ (tag ++ [90]) tag_bytes = [(tag ++ [90]) ++ run ++ [0]] ∧
        ((validUtf8 run = true ∧ get_str_tag tag_bytes tag no_str = .ok (some run)) ∨
          (validUtf8 run = false ∧
            get_str_tag tag_bytes tag no_str = .error unicodeDecodeMsg))) ∨
      (2 ≤ (findallStrZ (tag ++ [90]) tag_bytes).length ∧
        get_str_tag tag_bytes tag no_str = .error tagAmbiguityMsg)) ∧
    get_int_tag [65, 83, 67, 198, 65, 83, 67, 198] [65, 83] no_int =
      .error tagAmbiguityMsg ∧
    get_str_tag [77, 68, 90, 57, 57, 0, 77, 68, 90, 57, 57, 0] [77, 68] no_str =
      .error tagAmbiguityMsg := by
  obtain ⟨t0, t1, htag2⟩ := List.length_eq_two.mp htag
  subst htag2
  simp only [List.cons_append, List.nil_append]
  refine ⟨?_, ?_, ?_, ?_⟩
  · cases hf : findallSigC [t0, t1, 67] tag_bytes with
    | nil => exact Or.inl ⟨rfl, by simp [get_int_tag, hf]⟩
    | cons m ms =>
      cases ms with
      | nil =>
        refine Or.inr (Or.inl ?_)
        obtain ⟨h3, h4, h10⟩ :=
          findallSigC_shape [t0, t1, 67] tag_bytes m (hf ▸ List.mem_cons_self _ _)
        obtain ⟨a, b, c, d, hm⟩ := length_four_shape m h4
        subst hm
        have habc : ([a, b, c] : Bytes) = [t0, t1, 67] := h3
        injection habc with e1 habc
        injection habc with e2 habc
        injection habc with e3 _
        subst e1
        subst e2
        subst e3
        exact ⟨d, h10, rfl, by simp [get_int_tag, hf]⟩
      | cons m2 ms2 =>
        refine Or.inr (Or.inr ⟨?_, by simp [get_int_tag, hf]⟩)
        simp only [List.length_cons]
        omega
  · cases hf : findallStrZ [t0, t1, 90] tag_bytes with
    | nil => exact Or.inl ⟨rfl, by simp [get_str_tag, hf]⟩
    | cons m ms =>
      cases ms with
      | nil =>
        refine Or.inr (Or.inl ?_)
        obtain ⟨run, hm, hne, hz⟩ :=
          findallStrZ_shape [t0, t1, 90] tag_bytes m (hf ▸ List.mem_cons_self _ _)
        subst hm
        refine ⟨run, hne, hz, rfl, ?_⟩
        have hdec : ((([t0, t1, 90] : Bytes) ++ run ++ [0]).drop 3).dropLast = run := by
          show ((run ++ [0] : Bytes)).dropLast = run
          simp
        cases hv : validUtf8 run with
        | true => exact Or.inl ⟨rfl, by simp [get_str_tag, hf, hdec, hv]⟩
        | false => exact Or.inr ⟨rfl, by simp [get_str_tag, hf, hdec, hv]⟩
      | cons m2 ms2 =>
        refine Or.inr (Or.inr ⟨?_, by simp [get_str_tag, hf]⟩)
        simp only [List.length_cons]
        omega
  · simp [get_int_tag, findallSigC, isDotByte]
  · simp [get_str_tag, findallStrZ, splitAtNul]

/-- Witness for tag_lookup_outcomes: tag "AS" against the first eight
optional-field bytes of the fixture record. -/
theorem tag_lookup_outcomes_witness :
    (([65, 83] : Bytes).length = 2) ∧
    (((findallSigC ([65, 83] ++ [67]) [65, 83, 67, 198, 88, 83, 67, 126] = [] ∧
        get_int_tag [65, 83, 67, 198, 88, 83, 67, 126] [65, 83] (-2147483648) =
          .ok (-2147483648)) ∨
      (∃ c : Nat, c ≠ 10 ∧
        findallSigC ([65, 83] ++ [67]) [65, 83, 67, 198, 88, 83, 67, 126] =
          [(([65, 83] : Bytes) ++ [67]) ++ [c]] ∧
        get_int_tag [65, 83, 67, 198, 88, 83, 67, 126] [65, 83] (-2147483648) =
          .ok (c : Int)) ∨
      (2 ≤ (findallSigC ([65, 83] ++ [67]) [65, 83, 67, 198, 88, 83, 67, 126]).length ∧
        get_int_tag [65, 83, 67, 198, 88, 83, 67, 126] [65, 83] (-2147483648) =
          .error tagAmbiguityMsg)) ∧
    ((findallStrZ ([65, 83] ++ [90]) [65, 83, 67, 198, 88, 83, 67, 126] = [] ∧
        get_str_tag [65, 83, 67, 198, 88, 83, 67, 126] [65, 83] none = .ok none) ∨
      (∃ run : Bytes, run ≠ [] ∧ (∀ b ∈ run, b ≠ 0) ∧
        findallStrZ ([65, 83] ++ [90]) [65, 83, 67, 198, 88, 83, 67, 126] =
          [(([65, 83] : Bytes) ++ [90]) ++ run ++ [0]] ∧
        ((validUtf8 run = true ∧
            get_str_tag [65, 83, 67, 198, 88, 83, 67, 126] [65, 83] none =
              .ok (some run)) ∨
          (validUtf8 run = false ∧
            get_str_tag [65, 83, 67, 198, 88, 83, 67, 126] [65, 83] none =
              .error unicodeDecodeMsg))) ∨
      (2 ≤ (findallStrZ ([65, 83] ++ [90]) [65, 83, 67, 198, 88, 83, 67, 126]).length ∧
        get_str_tag [65, 83, 67, 198, 88, 83, 67, 126] [65, 83] none =
          .error tagAmbiguityMsg)) ∧
    get_int_tag [65, 83, 67, 198, 65, 83, 67, 198] [65, 83] (-2147483648) =
      .error tagAmbiguityMsg ∧
    get_str_tag [77, 68, 90, 57, 57, 0, 77, 68, 90, 57, 57, 0] [77, 68] none =
      .error tagAmbiguityMsg) :=
  ⟨rfl, tag_lookup_outcomes [65, 83, 67, 198, 88, 83, 67, 126] [65, 83]
    (-2147483648) none rfl⟩

-- ------------------------------------------------------------------
-- bam.py header model (_FileBase)
-- ------------------------------------------------------------------

/-- _FileBase.update_header_length applied to a raw header (the in-place
variant applies the same transformation to self.raw_header): unpack the
stored length from the first four bytes, compare with the byte length of
the following text, and repack the prefix on mismatch.  struct.unpack
raises when fewer than four bytes are available; struct.pack raises when
the actual length exceeds the signed 32-bit range. -/
def update_header_length (raw_header : Bytes) : Except String Bytes :=
  match unpackI32 (raw_header.take 4) with
  | none => .error "struct.error: unpack requires a buffer of 4 bytes"
  | some encoded_length =>
    let actual_length : Int := ((raw_header.drop 4).length : Int)
    if encoded_length = actual_length then .ok raw_header
    else
      match packI32 actual_length with
      | .ok p => .ok (p ++ raw_header.drop 4)
      | .error e => .error e

theorem i32Bytes_length (n : Int) : (i32Bytes n).length = 4 := rfl

theorem packI32_ok (n : Int) (p : Bytes) (h : packI32 n = .ok p) :
    p = i32Bytes n ∧ -(2 ^ 31) ≤ n ∧ n < 2 ^ 31 := by
  unfold packI32 at h
  split at h
  · next hr => exact ⟨(Except.ok.inj h).symm, hr⟩
  · exact absurd h (by simp)

/-- Core invariant of update_header_length: on success the stored prefix
decodes to the length of the following text, and the text itself is
untouched. -/
theorem update_header_length_ok (raw out : Bytes)
    (h : update_header_length raw = .ok out) :
    unpackI32 (out.take 4) = some ((out.drop 4).length : Int) ∧
    out.drop 4 = raw.drop 4 := by
  unfold update_header_length at h
  cases henc : unpackI32 (raw.take 4) with
  | none => rw [henc] at h; exact absurd h (by simp)
  | some enc =>
    rw [henc] at h
    simp only at h
    split at h
    · next heq =>
      have hout : raw = out := Except.ok.inj h
      subst hout
      exact ⟨by rw [henc, heq], rfl⟩
    · next hne =>
      cases hp : packI32 ((raw.drop 4).length : Int) with
      | error e => rw [hp] at h; exact absurd h (by simp)
      | ok p =>
        rw [hp] at h
        simp only [Except.ok.injEq] at h
        obtain ⟨hpv, _, hlt⟩ := packI32_ok _ _ hp
        subst hpv
        subst h
        have htake : ((i32Bytes ((raw.drop 4).length : Int) ++ raw.drop 4).take 4)
            = i32Bytes ((raw.drop 4).length : Int) := by
          rw [show (4 : Nat) = (i32Bytes ((raw.drop 4).length : Int)).length from rfl]
          exact List.take_left _ _
        have hdrop : ((i32Bytes ((raw.drop 4).length : Int) ++ raw.drop 4).drop 4)
            = raw.drop 4 := by
          rw [show (4 : Nat) = (i32Bytes ((raw.drop 4).length : Int)).length from rfl]
          exact List.drop_left _ _
        rw [htake, hdrop]
        exact ⟨unpackI32_i32Bytes _ (by positivity) hlt, rfl⟩

/-- [0-9a-zA-Z] as a byte predicate. -/
def isAlnumByte (b : Nat) : Bool :=
  (48 ≤ b ∧ b ≤ 57) ∨ (65 ≤ b ∧ b ≤ 90) ∨ (97 ≤ b ∧ b ≤ 122)

/-- [a-zA-Z] as a byte predicate. -/
def isAlphaByte (b : Nat) : Bool :=
  (65 ≤ b ∧ b ≤ 90) ∨ (97 ≤ b ∧ b ≤ 122)

/-- The head of l matches the three-byte literal pat followed by one byte
satisfying follow (the regular expressions b"@PG.+", b"@CO.+" and
b"SO:[a-zA-Z]+" all have this form as far as their span start and
existence are concerned: "." is any byte but newline, and a nonempty
greedy tail requires at least one following byte). -/
def matchSigFollow (pat : Bytes) (follow : Nat → Bool) (l : Bytes) : Bool :=
  decide (l.take 3 = pat) && (match l[3]? with | some c => follow c | none => false)

/-- re.search span start: the first index whose suffix matches, `none`
when there is no match. -/
def searchSigFollow (pat : Bytes) (follow : Nat → Bool) : Bytes → Option Nat
  | [] => none
  | b :: rest =>
    if matchSigFollow pat follow (b :: rest) then some 0
    else (searchSigFollow pat follow rest).map (· + 1)

/-- The follow predicate of "." under default re semantics. -/
def dotFollow (c : Nat) : Bool := c ≠ 10

/-- The longest prefix of alphanumeric bytes (the greedy [0-9a-zA-Z]+). -/
def takeAlnum : Bytes → Bytes
  | [] => []
  | b :: rest => if isAlnumByte b then b :: takeAlnum rest else []

def headAlnum : Option Nat → Bool
  | some c => isAlnumByte c
  | none => false

/-- re.findall of rb"ID:[0-9a-zA-Z]+": left-to-right non-overlapping scan;
a match is the literal "ID:" followed by the maximal nonempty
alphanumeric run, and the scan resumes after the run. -/
def findallID : Bytes → List Bytes
  | [] => []
  | b :: rest =>
    if b = 73 ∧ rest.take 2 = [68, 58] ∧ headAlnum (rest.drop 2).head? then
      ([73, 68, 58] ++ takeAlnum (rest.drop 2))
        :: findallID ((rest.drop 2).drop (takeAlnum (rest.drop 2)).length)
    else findallID rest
termination_by l => l.length
decreasing_by
  · simp only [List.length_cons, List.length_drop]
    omega
  · simp only [List.length_cons]
    omega

/-- _FileBase.get_updated_header on an explicit raw header (the method
defaults raw_header to self.raw_header; callers below do that plumbing).
The textual parameters are modelled as their utf-8 byte strings; None
arguments for command and description are `none` (the source also treats
an empty string as absent).  The source's assert and the [-1] indexing of
the ID: match list can raise, modelled as errors. -/
def get_updated_header (raw_header : Bytes) (id program version : Bytes)
    (command description : Option Bytes) : Except String Bytes :=
  let CO_start := (searchSigFollow [64, 67, 79] dotFollow raw_header).getD raw_header.length
  let PG_start := (searchSigFollow [64, 80, 71] dotFollow raw_header).getD CO_start
  let raw_HD_and_SQ := raw_header.take PG_start
  let raw_PG := pySlice raw_header PG_start CO_start
  let raw_CO := raw_header.drop CO_start
  if raw_HD_and_SQ ++ raw_PG ++ raw_CO = raw_header then
    let base := [64, 80, 71, 9, 73, 68, 58] ++ id ++ [9, 80, 78, 58] ++ program
      ++ [9, 86, 78, 58] ++ version
    match (if raw_PG = [] then .ok base
      else
        match (findallID raw_PG).getLast? with
        | none => .error "IndexError: list index out of range"
        | some mlast => .ok (base ++ [9, 80, 80, 58] ++ mlast.drop 3) :
          Except String Bytes) with
    | .error e => .error e
    | .ok withPP =>
      let withCL := match command with
        | some cl => withPP ++ [9, 67, 76, 58] ++ cl
        | none => withPP
      let withDS := match description with
        | some ds => withCL ++ [9, 68, 83, 58] ++ ds
        | none => withCL
      let new_PG_line := withDS ++ [10]
      update_header_length (raw_HD_and_SQ ++ raw_PG ++ new_PG_line ++ raw_CO)
  else .error "AssertionError"

/-- _FileBase.update_header: rewrite self.raw_header via get_updated_header
and re-derive the length prefix in place. -/
def update_header (raw_header : Bytes) (id program version : Bytes)
    (command description : Option Bytes) : Except String Bytes :=
  match get_updated_header raw_header id program version command description with
  | .error e => .error e
  | .ok h => update_header_length h

/-- C6: after update_header_length (in place or on a supplied argument)
and after every update_header call, the little-endian signed 32-bit
integer stored in the first four bytes of the raw header equals the byte
length of the text that follows them, and the length update leaves the
text bytes unchanged. -/
theorem header_length_prefix_invariant (raw id program version : Bytes)
    (command description : Option Bytes) :
    (∀ out, update_header_length raw = .ok out →
      unpackI32 (out.take 4) = some ((out.drop 4).length : Int) ∧
      out.drop 4 = raw.drop 4) ∧
    (∀ out, update_header raw id program version command description = .ok out →
      unpackI32 (out.take 4) = some ((out.drop 4).length : Int)) := by
  refine ⟨fun out h => update_header_length_ok raw out h, fun out h => ?_⟩
  unfold update_header at h
  cases hg : get_updated_header raw id program version command description with
  | error e => rw [hg] at h; exact absurd h (by simp)
  | ok g =>
    rw [hg] at h
    exact (update_header_length_ok g out h).1

/-- Witness for header_length_prefix_invariant: a stale prefix [0,0,0,0]
on four bytes of text is rewritten to [4,0,0,0], and update_header on the
same header appends a @PG line and stores the new length 23. -/
theorem header_length_prefix_invariant_witness :
    (unpackI32 (([4, 0, 0, 0, 83, 79, 58, 120] : Bytes).take 4) =
        some ((([4, 0, 0, 0, 83, 79, 58, 120] : Bytes).drop 4).length : Int) ∧
      ([4, 0, 0, 0, 83, 79, 58, 120] : Bytes).drop 4 =
        ([0, 0, 0, 0, 83, 79, 58, 120] : Bytes).drop 4) ∧
    (unpackI32 ((([23, 0, 0, 0, 83, 79, 58, 120, 64, 80, 71, 9, 73, 68, 58, 97,
        9, 80, 78, 58, 98, 9, 86, 78, 58, 99, 10] : Bytes)).take 4) =
      some (((([23, 0, 0, 0, 83, 79, 58, 120, 64, 80, 71, 9, 73, 68, 58, 97,
        9, 80, 78, 58, 98, 9, 86, 78, 58, 99, 10] : Bytes)).drop 4).length : Int)) :=
  ⟨(header_length_prefix_invariant [0, 0, 0, 0, 83, 79, 58, 120] [97] [98] [99]
      none none).1 _ (by rfl),
    (header_length_prefix_invariant [0, 0, 0, 0, 83, 79, 58, 120] [97] [98] [99]
      none none).2 _ (by rfl)⟩

-- ------------------------------------------------------------------
-- Positional lemmas for the signature searches used by the header
-- rewrite
-- ------------------------------------------------------------------

/-- No occurrence of the three-byte pattern pat anywhere in l. -/
def tripleFree (pat l : Bytes) : Prop := ∀ j < l.length, (l.drop j).take 3 ≠ pat

instance (pat l : Bytes) : Decidable (tripleFree pat l) := by
  unfold tripleFree
  infer_instance

theorem matchSigFollow_nil (pat : Bytes) (f : Nat → Bool) :
    matchSigFollow pat f [] = false := by
  unfold matchSigFollow
  simp

theorem matchSigFollow_false_of_take3_ne (pat : Bytes) (f : Nat → Bool) (l : Bytes)
    (h : l.take 3 ≠ pat) : matchSigFollow pat f l = false := by
  unfold matchSigFollow
  simp [h]

theorem take3_eq_iff (l : Bytes) (x y z : Nat) :
    l.take 3 = [x, y, z] ↔ l[0]? = some x ∧ l[1]? = some y ∧ l[2]? = some z := by
  match l with
  | [] => simp
  | [a] => simp
  | [a, b] => simp
  | a :: b :: c :: t =>
    show ([a, b, c] : Bytes) = [x, y, z] ↔ _
    simp

theorem take2_eq_iff (l : Bytes) (x y : Nat) :
    l.take 2 = [x, y] ↔ l[0]? = some x ∧ l[1]? = some y := by
  match l with
  | [] => simp
  | [a] => simp
  | a :: b :: t =>
    show ([a, b] : Bytes) = [x, y] ↔ _
    simp

theorem matchSigFollow_iff (x y z : Nat) (f : Nat → Bool) (l : Bytes) :
    matchSigFollow [x, y, z] f l = true ↔
      l[0]? = some x ∧ l[1]? = some y ∧ l[2]? = some z ∧
        ∃ c, l[3]? = some c ∧ f c = true := by
  unfold matchSigFollow
  rw [Bool.and_eq_true, decide_eq_true_eq, take3_eq_iff]
  cases h3 : l[3]? with
  | none => simp
  | some c =>
    simp only [and_assoc, and_congr_right_iff]
    intro _ _ _
    constructor
    · intro hf
      exact ⟨c, rfl, hf⟩
    · rintro ⟨c2, hc2, hf⟩
      injection hc2 with he
      subst he
      exact hf

theorem searchSigFollow_eq_none (pat : Bytes) (f : Nat → Bool) (l : Bytes)
    (h : ∀ j, matchSigFollow pat f (l.drop j) = false) :
    searchSigFollow pat f l = none := by
  induction l with
  | nil => rfl
  | cons b rest ih =>
    rw [searchSigFollow, if_neg (by simpa using h 0)]
    rw [ih (fun j => h (j + 1))]
    rfl

theorem searchSigFollow_eq_some (pat : Bytes) (f : Nat → Bool) (l : Bytes) (i : Nat)
    (hm : matchSigFollow pat f (l.drop i) = true)
    (hb : ∀ j < i, matchSigFollow pat f (l.drop j) = false) :
    searchSigFollow pat f l = some i := by
  induction l generalizing i with
  | nil =>
    rw [List.drop_nil] at hm
    rw [matchSigFollow_nil] at hm
    exact absurd hm (by simp)
  | cons b rest ih =>
    cases i with
    | zero => rw [searchSigFollow, if_pos (by simpa using hm)]
    | succ i' =>
      rw [searchSigFollow, if_neg (by simpa using hb 0 (Nat.succ_pos _))]
      rw [ih i' hm (fun j hj => hb (j + 1) (by omega))]
      rfl

/-- The f-string "@PG\tID:{id}\tPN:{program}\tVN:{version}" as bytes. -/
def pgBase (id pn vn : Bytes) : Bytes :=
  [64, 80, 71, 9, 73, 68, 58] ++ id ++ [9, 80, 78, 58] ++ pn ++ [9, 86, 78, 58] ++ vn

/-- A complete appended @PG line without a PP field. -/
def pgLine (id pn vn : Bytes) : Bytes := pgBase id pn vn ++ [10]

/-- A complete appended @PG line carrying a PP back-reference. -/
def pgLinePP (id pn vn pp : Bytes) : Bytes :=
  (pgBase id pn vn ++ [9, 80, 80, 58] ++ pp) ++ [10]

theorem pgLine_ne_nil (id pn vn : Bytes) : pgLine id pn vn ≠ [] := by
  simp [pgLine, pgBase]

theorem pgLine_getElem_zero (id pn vn : Bytes) : (pgLine id pn vn)[0]? = some 64 := rfl

theorem pgLine_getElem_one (id pn vn : Bytes) : (pgLine id pn vn)[1]? = some 80 := rfl

theorem pgLine_match (id pn vn : Bytes) :
    matchSigFollow [64, 80, 71] dotFollow (pgLine id pn vn) = true := rfl

theorem i32Bytes_small (n : Int) (h0 : 0 ≤ n) (hn : n < 65536) :
    (i32Bytes n)[2]? = some 0 ∧ (i32Bytes n)[3]? = some 0 := by
  unfold i32Bytes
  have hm : n % 2 ^ 32 = n := Int.emod_eq_of_lt h0 (by omega)
  rw [hm]
  have hu : n.toNat < 65536 := by omega
  constructor
  · show some (n.toNat / 65536 % 256) = some 0
    have : n.toNat / 65536 = 0 := by omega
    rw [this]
  · show some (n.toNat / 16777216 % 256) = some 0
    have : n.toNat / 16777216 = 0 := by omega
    rw [this]

/-- Below the appended @PG line, the rewritten header
i32Bytes n ++ (T ++ L) contains no match of a pattern [x, y, z] with
x, z nonzero and z distinct from the first two bytes 64, 80 of L, given
that the old text T is free of the pattern.  Indices 2 and 3 of the fresh
length prefix are zero because n < 65536. -/
theorem no_triple_low (x y z : Nat) (n : Int) (h0 : 0 ≤ n) (hn : n < 65536)
    (T L : Bytes) (hx : x ≠ 0) (hz0 : z ≠ 0) (hz64 : z ≠ 64) (hz80 : z ≠ 80)
    (hT : tripleFree [x, y, z] T)
    (hL0 : L[0]? = some 64) (hL1 : L[1]? = some 80)
    (j : Nat) (hj : j < 4 + T.length) :
    matchSigFollow [x, y, z] dotFollow ((i32Bytes n ++ (T ++ L)).drop j) = false := by
  have hE : (i32Bytes n).length = 4 := rfl
  have hE2 : (i32Bytes n)[2]? = some 0 := (i32Bytes_small n h0 hn).1
  have hE3 : (i32Bytes n)[3]? = some 0 := (i32Bytes_small n h0 hn).2
  have hidxE : ∀ k, k < 4 → (i32Bytes n ++ (T ++ L))[k]? = (i32Bytes n)[k]? := by
    intro k hk
    rw [List.getElem?_append, if_pos (by rw [hE]; exact hk)]
  have hidxT : ∀ k, 4 ≤ k → k < 4 + T.length →
      (i32Bytes n ++ (T ++ L))[k]? = T[k - 4]? := by
    intro k h1 h2
    rw [List.getElem?_append, if_neg (by rw [hE]; omega), hE]
    rw [List.getElem?_append, if_pos (by omega)]
  have hidxL : ∀ k, 4 + T.length ≤ k →
      (i32Bytes n ++ (T ++ L))[k]? = L[k - 4 - T.length]? := by
    intro k h1
    rw [List.getElem?_append, if_neg (by rw [hE]; omega), hE]
    rw [List.getElem?_append, if_neg (by omega)]
  rw [Bool.eq_false_iff]
  intro hm
  rw [matchSigFollow_iff] at hm
  obtain ⟨hm0, hm1, hm2, _⟩ := hm
  rw [List.getElem?_drop] at hm0 hm1 hm2
  have ha : (i32Bytes n ++ (T ++ L))[j]? = some x := by simpa using hm0
  have hc : (i32Bytes n ++ (T ++ L))[j + 2]? = some z := hm2
  rcases Nat.lt_or_ge j 2 with hj1 | hj2
  · have he : (i32Bytes n ++ (T ++ L))[j + 2]? = (i32Bytes n)[j + 2]? :=
      hidxE _ (by omega)
    interval_cases j
    · rw [he, hE2] at hc
      injection hc with hh
      exact hz0 hh.symm
    · rw [he, hE3] at hc
      injection hc with hh
      exact hz0 hh.symm
  · rcases Nat.lt_or_ge j 4 with hj3 | hj4
    · have he : (i32Bytes n ++ (T ++ L))[j]? = (i32Bytes n)[j]? := hidxE _ (by omega)
      interval_cases j
      · rw [he, hE2] at ha
        injection ha with hh
        exact hx hh.symm
      · rw [he, hE3] at ha
        injection ha with hh
        exact hx hh.symm
    · rcases Nat.lt_or_ge (j + 2) (4 + T.length) with hj5 | hj6
      · apply hT (j - 4) (by omega)
        rw [take3_eq_iff]
        have e0 : T[j - 4 + 0]? = T[j - 4]? := by rw [Nat.add_zero]
        have e1 : j - 4 + 1 = j + 1 - 4 := by omega
        have e2 : j - 4 + 2 = j + 2 - 4 := by omega
        refine ⟨?_, ?_, ?_⟩
        · rw [List.getElem?_drop, Nat.add_zero, ← hidxT j hj4 (by omega)]
          exact ha
        · rw [List.getElem?_drop, e1, ← hidxT (j + 1) (by omega) (by omega)]
          exact hm1
        · rw [List.getElem?_drop, e2, ← hidxT (j + 2) (by omega) (by omega)]
          exact hc
      · have he : (i32Bytes n ++ (T ++ L))[j + 2]? = L[j + 2 - 4 - T.length]? :=
          hidxL _ (by omega)
        rcases (by omega : j + 2 - 4 - T.length = 0 ∨ j + 2 - 4 - T.length = 1)
          with ho | ho
        · rw [he, ho, hL0] at hc
          injection hc with hh
          exact hz64 hh.symm
        · rw [he, ho, hL1] at hc
          injection hc with hh
          exact hz80 hh.symm

theorem pgLine_getElem_64 (id pn vn : Bytes) (h64 : ∀ b ∈ id ++ pn ++ vn, b ≠ 64)
    (k : Nat) (hk : (pgLine id pn vn)[k]? = some 64) : k = 0 := by
  cases k with
  | zero => rfl
  | succ k2 =>
    exfalso
    have hid : ∀ b ∈ id, b ≠ 64 := fun b hm => h64 b (by simp [hm])
    have hpn : ∀ b ∈ pn, b ≠ 64 := fun b hm => h64 b (by simp [hm])
    have hvn : ∀ b ∈ vn, b ≠ 64 := fun b hm => h64 b (by simp [hm])
    have he : pgLine id pn vn =
        64 :: ([80, 71, 9, 73, 68, 58] ++ (id ++ ([9, 80, 78, 58] ++ (pn
          ++ ([9, 86, 78, 58] ++ (vn ++ [10])))))) := by
      simp [pgLine, pgBase]
    rw [he, List.getElem?_cons_succ] at hk
    have hmem := List.getElem?_mem hk
    have hALL : ∀ b ∈ ([80, 71, 9, 73, 68, 58] ++ (id ++ ([9, 80, 78, 58] ++ (pn
        ++ ([9, 86, 78, 58] ++ (vn ++ [10]))))) : Bytes), b ≠ 64 := by
      simp only [List.forall_mem_append]
      exact ⟨by decide, hid, by decide, hpn, by decide, hvn, by decide⟩
    exact hALL 64 hmem rfl

/-- After a rewrite, the first @PG match of the header
i32Bytes n ++ (T ++ pgLine id pn vn) is exactly at the start of the
appended line. -/
theorem search_rewritten_pg (n : Int) (h0 : 0 ≤ n) (hn : n < 65536)
    (T id pn vn : Bytes) (hT : tripleFree [64, 80, 71] T) :
    searchSigFollow [64, 80, 71] dotFollow (i32Bytes n ++ (T ++ pgLine id pn vn)) =
      some (4 + T.length) := by
  apply searchSigFollow_eq_some
  · have hdrop : (i32Bytes n ++ (T ++ pgLine id pn vn)).drop (4 + T.length) =
        pgLine id pn vn := by
      rw [← List.append_assoc]
      have hlen : (i32Bytes n ++ T).length = 4 + T.length := by
        rw [List.length_append, i32Bytes_length]
      rw [← hlen, List.drop_left]
    rw [hdrop]
    exact pgLine_match id pn vn
  · intro j hj
    exact no_triple_low 64 80 71 n h0 hn T _ (by omega) (by omega) (by omega) (by omega)
      hT (pgLine_getElem_zero id pn vn) (pgLine_getElem_one id pn vn) j hj

/-- After a rewrite, the header i32Bytes n ++ (T ++ pgLine id pn vn) has
no @CO match at all. -/
theorem search_rewritten_co (n : Int) (h0 : 0 ≤ n) (hn : n < 65536)
    (T id pn vn : Bytes) (h64 : ∀ b ∈ id ++ pn ++ vn, b ≠ 64)
    (hT : tripleFree [64, 67, 79] T) :
    searchSigFollow [64, 67, 79] dotFollow (i32Bytes n ++ (T ++ pgLine id pn vn)) =
      none := by
  apply searchSigFollow_eq_none
  intro j
  rcases Nat.lt_or_ge j (4 + T.length) with hj | hj
  · exact no_triple_low 64 67 79 n h0 hn T _ (by omega) (by omega) (by omega) (by omega)
      hT (pgLine_getElem_zero id pn vn) (pgLine_getElem_one id pn vn) j hj
  · have hdrop : (i32Bytes n ++ (T ++ pgLine id pn vn)).drop j =
        (pgLine id pn vn).drop (j - (4 + T.length)) := by
      rw [← List.append_assoc]
      have hlen : (i32Bytes n ++ T).length = 4 + T.length := by
        rw [List.length_append, i32Bytes_length]
      rw [List.drop_append_eq_append_drop, List.drop_eq_nil_of_le (by omega),
        List.nil_append, hlen]
    rw [hdrop]
    rw [Bool.eq_false_iff]
    intro hm
    rw [matchSigFollow_iff] at hm
    obtain ⟨hm0, hm1, _, _⟩ := hm
    rw [List.getElem?_drop] at hm0 hm1
    have hz : j - (4 + T.length) + 0 = 0 :=
      pgLine_getElem_64 id pn vn h64 _ hm0
    rw [show j - (4 + T.length) + 1 = 1 by omega, pgLine_getElem_one] at hm1
    injection hm1 with hh
    omega

theorem takeAlnum_append_stop (xs ys : Bytes)
    (hxs : ∀ b ∈ xs, isAlnumByte b = true) (hy : headAlnum ys.head? = false) :
    takeAlnum (xs ++ ys) = xs := by
  induction xs with
  | nil =>
    cases ys with
    | nil => rfl
    | cons y t =>
      show takeAlnum (y :: t) = []
      rw [takeAlnum, if_neg]
      simp only [headAlnum, List.head?_cons] at hy
      simp [hy]
  | cons x xt ih =>
    show takeAlnum (x :: (xt ++ ys)) = x :: xt
    rw [takeAlnum, if_pos (hxs x (List.mem_cons_self _ _))]
    rw [ih (fun b hb => hxs b (List.mem_cons_of_mem _ hb))]

theorem findallID_cons_skip (b : Nat) (l : Bytes) (hb : b ≠ 73) :
    findallID (b :: l) = findallID l := by
  rw [findallID, if_neg]
  intro hcond
  exact hb hcond.1

theorem findallID_match (idrun rest2 : Bytes) (hne : idrun ≠ [])
    (halnum : ∀ b ∈ idrun, isAlnumByte b = true)
    (hstop : headAlnum rest2.head? = false) :
    findallID (73 :: 68 :: 58 :: (idrun ++ rest2)) =
      ([73, 68, 58] ++ idrun) :: findallID rest2 := by
  obtain ⟨i0, irest, hi⟩ : ∃ i0 irest, idrun = i0 :: irest := by
    cases idrun with
    | nil => exact absurd rfl hne
    | cons a t => exact ⟨a, t, rfl⟩
  have hrun : takeAlnum (idrun ++ rest2) = idrun :=
    takeAlnum_append_stop idrun rest2 halnum hstop
  rw [findallID, if_pos]
  · rw [show ((68 :: 58 :: (idrun ++ rest2)).drop 2) = idrun ++ rest2 from rfl]
    rw [hrun]
    rw [List.drop_left]
  · refine ⟨rfl, rfl, ?_⟩
    rw [show ((68 :: 58 :: (idrun ++ rest2)).drop 2) = idrun ++ rest2 from rfl]
    rw [hi]
    show headAlnum (some i0) = true
    simp only [headAlnum]
    exact halnum i0 (by rw [hi]; exact List.mem_cons_self _ _)

theorem findallID_nil (l : Bytes)
    (h : ∀ j < l.length, (l.drop j).take 3 ≠ [73, 68, 58]) : findallID l = [] := by
  induction l using findallID.induct with
  | case1 => simp [findallID]
  | case2 b rest hcond ih =>
    exfalso
    obtain ⟨hb, h2, _⟩ := hcond
    apply h 0 (by simp)
    rw [List.drop_zero]
    have : (b :: rest).take 3 = b :: rest.take 2 := rfl
    rw [this, hb, h2]
  | case3 b rest hcond ih =>
    rw [findallID, if_neg hcond]
    exact ih (fun j hj => h (j + 1) (by simp; omega))

/-- The ID: scan of a freshly appended @PG line finds exactly the ID run
of that line. -/
theorem findallID_pgLine (id pn vn : Bytes) (hne : id ≠ [])
    (halnum : ∀ b ∈ id, isAlnumByte b = true)
    (hIDf : tripleFree [73, 68, 58]
      ([9, 80, 78, 58] ++ (pn ++ ([9, 86, 78, 58] ++ (vn ++ [10]))))) :
    findallID (pgLine id pn vn) = [[73, 68, 58] ++ id] := by
  have he : pgLine id pn vn =
      64 :: 80 :: 71 :: 9 :: 73 :: 68 :: 58 ::
        (id ++ ([9, 80, 78, 58] ++ (pn ++ ([9, 86, 78, 58] ++ (vn ++ [10]))))) := by
    simp [pgLine, pgBase]
  rw [he]
  rw [findallID_cons_skip 64 _ (by omega), findallID_cons_skip 80 _ (by omega),
    findallID_cons_skip 71 _ (by omega), findallID_cons_skip 9 _ (by omega)]
  rw [findallID_match id _ hne halnum (by rfl)]
  rw [findallID_nil _ hIDf]

theorem search_none_of_tripleFree (pat : Bytes) (f : Nat → Bool) (l : Bytes)
    (h : tripleFree pat l) : searchSigFollow pat f l = none := by
  apply searchSigFollow_eq_none
  intro j
  rcases Nat.lt_or_ge j l.length with hj | hj
  · exact matchSigFollow_false_of_take3_ne _ _ _ (h j hj)
  · rw [List.drop_eq_nil_of_le hj]
    exact matchSigFollow_nil pat f

theorem update_header_length_id (l : Bytes)
    (h : unpackI32 (l.take 4) = some ((l.drop 4).length : Int)) :
    update_header_length l = .ok l := by
  unfold update_header_length
  rw [h]
  simp

theorem pgLine_length_pos (id pn vn : Bytes) : 1 ≤ (pgLine id pn vn).length := by
  simp [pgLine]

theorem drop_four_append (H L : Bytes) (h4 : 4 ≤ H.length) :
    (H ++ L).drop 4 = H.drop 4 ++ L := by
  rw [List.drop_append_eq_append_drop, show 4 - H.length = 0 by omega, List.drop_zero]

theorem update_header_length_repack (l : Bytes) (enc : Int)
    (h : unpackI32 (l.take 4) = some enc)
    (hne : enc ≠ ((l.drop 4).length : Int))
    (h31 : ((l.drop 4).length : Int) < 2 ^ 31) :
    update_header_length l = .ok (i32Bytes ((l.drop 4).length : Int) ++ l.drop 4) := by
  unfold update_header_length
  rw [h]
  simp only
  rw [if_neg hne]
  have hpk : packI32 ((l.drop 4).length : Int) = .ok (i32Bytes ((l.drop 4).length : Int)) := by
    unfold packI32
    rw [if_pos ⟨by omega, h31⟩]
  rw [hpk]

theorem prefix_invariant_append (n : Int) (X : Bytes) (h0 : 0 ≤ n) (h31 : n < 2 ^ 31)
    (hlen : n = (X.length : Int)) :
    unpackI32 ((i32Bytes n ++ X).take 4) = some (((i32Bytes n ++ X).drop 4).length : Int) := by
  have ht : (i32Bytes n ++ X).take 4 = i32Bytes n := by
    rw [show (4 : Nat) = (i32Bytes n).length from rfl]
    exact List.take_left _ _
  have hd : (i32Bytes n ++ X).drop 4 = X := by
    rw [show (4 : Nat) = (i32Bytes n).length from rfl]
    exact List.drop_left _ _
  rw [ht, hd, unpackI32_i32Bytes n h0 h31, hlen]

/-- First provenance rewrite: on a header containing no @PG and no @CO
match and carrying a correct length prefix, update_header appends exactly
one @PG line without PP field and stores the new length. -/
theorem update_header_fresh (H id pn vn : Bytes)
    (h4 : 4 ≤ H.length)
    (hwf : unpackI32 (H.take 4) = some ((H.drop 4).length : Int))
    (hPG : tripleFree [64, 80, 71] H)
    (hCO : tripleFree [64, 67, 79] H)
    (hsz : (H.drop 4).length + (pgLine id pn vn).length < 2 ^ 31) :
    update_header H id pn vn none none =
      .ok (i32Bytes (((H.drop 4).length + (pgLine id pn vn).length : Nat) : Int)
        ++ (H.drop 4 ++ pgLine id pn vn)) := by
  have hPGs := search_none_of_tripleFree [64, 80, 71] dotFollow H hPG
  have hCOs := search_none_of_tripleFree [64, 67, 79] dotFollow H hCO
  have hg : get_updated_header H id pn vn none none =
      update_header_length (H ++ pgLine id pn vn) := by
    simp only [get_updated_header, hPGs, hCOs, Option.getD_none, List.take_length,
      pySlice, List.drop_length, List.append_nil, List.nil_append]
    rw [if_pos (by simp)]
    simp [pgLine, pgBase]
  have hdrop : (H ++ pgLine id pn vn).drop 4 = H.drop 4 ++ pgLine id pn vn :=
    drop_four_append H _ h4
  have hL1 := pgLine_length_pos id pn vn
  have hul := update_header_length_repack (H ++ pgLine id pn vn)
    ((H.drop 4).length : Int)
    (by rw [List.take_append_of_le_length h4]; exact hwf)
    (by rw [hdrop]; simp only [List.length_append]; push_cast; omega)
    (by rw [hdrop]; simp only [List.length_append]; push_cast; omega)
  rw [hdrop] at hul
  have hcast : ((H.drop 4 ++ pgLine id pn vn).length : Int) =
      (((H.drop 4).length + (pgLine id pn vn).length : Nat) : Int) := by
    simp [List.length_append]
  rw [hcast] at hul
  have hlen1 := prefix_invariant_append
    (((H.drop 4).length + (pgLine id pn vn).length : Nat) : Int)
    (H.drop 4 ++ pgLine id pn vn) (by positivity) (by push_cast; omega)
    (by simp [List.length_append])
  unfold update_header
  rw [hg, hul]
  exact update_header_length_id _ hlen1

theorem pgLinePP_length_pos (id pn vn pp : Bytes) : 1 ≤ (pgLinePP id pn vn pp).length := by
  simp [pgLinePP]
  omega

/-- Second provenance rewrite: on a header of the exact shape produced by
the first rewrite, update_header appends one @PG line whose PP field
carries the identifier of the previously appended @PG line. -/
theorem update_header_appended (T id1 pn1 vn1 id2 pn2 vn2 : Bytes)
    (hTpg : tripleFree [64, 80, 71] T) (hTco : tripleFree [64, 67, 79] T)
    (h64 : ∀ b ∈ id1 ++ pn1 ++ vn1, b ≠ 64)
    (hne : id1 ≠ []) (halnum : ∀ b ∈ id1, isAlnumByte b = true)
    (hIDf : tripleFree [73, 68, 58]
      ([9, 80, 78, 58] ++ (pn1 ++ ([9, 86, 78, 58] ++ (vn1 ++ [10])))))
    (hsz : T.length + (pgLine id1 pn1 vn1).length
      + (pgLinePP id2 pn2 vn2 id1).length < 65536) :
    update_header
        (i32Bytes ((T.length + (pgLine id1 pn1 vn1).length : Nat) : Int)
          ++ (T ++ pgLine id1 pn1 vn1)) id2 pn2 vn2 none none =
      .ok (i32Bytes ((T.length + (pgLine id1 pn1 vn1).length
            + (pgLinePP id2 pn2 vn2 id1).length : Nat) : Int)
        ++ (T ++ (pgLine id1 pn1 vn1 ++ pgLinePP id2 pn2 vn2 id1))) := by
  have h0 : (0 : Int) ≤ ((T.length + (pgLine id1 pn1 vn1).length : Nat) : Int) := by
    positivity
  have hn : ((T.length + (pgLine id1 pn1 vn1).length : Nat) : Int) < 65536 := by
    have := pgLinePP_length_pos id2 pn2 vn2 id1
    push_cast
    omega
  have hPGs := search_rewritten_pg
    ((T.length + (pgLine id1 pn1 vn1).length : Nat) : Int) h0 hn T id1 pn1 vn1 hTpg
  have hCOs := search_rewritten_co
    ((T.length + (pgLine id1 pn1 vn1).length : Nat) : Int) h0 hn T id1 pn1 vn1 h64 hTco
  have hRsplit : i32Bytes ((T.length + (pgLine id1 pn1 vn1).length : Nat) : Int)
      ++ (T ++ pgLine id1 pn1 vn1) =
      (i32Bytes ((T.length + (pgLine id1 pn1 vn1).length : Nat) : Int) ++ T)
        ++ pgLine id1 pn1 vn1 := by
    rw [List.append_assoc]
  have hlenET : (i32Bytes ((T.length + (pgLine id1 pn1 vn1).length : Nat) : Int)
      ++ T).length = 4 + T.length := by
    rw [List.length_append, i32Bytes_length]
  have htak : (i32Bytes ((T.length + (pgLine id1 pn1 vn1).length : Nat) : Int)
      ++ (T ++ pgLine id1 pn1 vn1)).take (4 + T.length) =
      i32Bytes ((T.length + (pgLine id1 pn1 vn1).length : Nat) : Int) ++ T := by
    rw [hRsplit, ← hlenET, List.take_left]
  have hdrp : (i32Bytes ((T.length + (pgLine id1 pn1 vn1).length : Nat) : Int)
      ++ (T ++ pgLine id1 pn1 vn1)).drop (4 + T.length) = pgLine id1 pn1 vn1 := by
    rw [hRsplit, ← hlenET, List.drop_left]
  have hfid := findallID_pgLine id1 pn1 vn1 hne halnum hIDf
  have hg : get_updated_header
      (i32Bytes ((T.length + (pgLine id1 pn1 vn1).length : Nat) : Int)
        ++ (T ++ pgLine id1 pn1 vn1)) id2 pn2 vn2 none none =
      update_header_length
        ((i32Bytes ((T.length + (pgLine id1 pn1 vn1).length : Nat) : Int) ++ T)
          ++ (pgLine id1 pn1 vn1 ++ pgLinePP id2 pn2 vn2 id1)) := by
    simp only [get_updated_header, hPGs, hCOs, Option.getD_none, Option.getD_some,
      pySlice, List.take_length, List.drop_length, List.append_nil]
    rw [htak, hdrp]
    rw [if_pos (List.append_assoc _ _ _)]
    rw [if_neg (pgLine_ne_nil id1 pn1 vn1)]
    rw [hfid]
    simp only [List.getLast?_singleton]
    have hdrop3 : (([73, 68, 58] : Bytes) ++ id1).drop 3 = id1 := rfl
    rw [hdrop3]
    congr 1
    simp [pgLinePP, pgBase, List.append_assoc]
  have hdrop4 : ((i32Bytes ((T.length + (pgLine id1 pn1 vn1).length : Nat) : Int) ++ T)
      ++ (pgLine id1 pn1 vn1 ++ pgLinePP id2 pn2 vn2 id1)).drop 4 =
      T ++ (pgLine id1 pn1 vn1 ++ pgLinePP id2 pn2 vn2 id1) := by
    rw [List.append_assoc]
    rw [show (4 : Nat) =
      (i32Bytes ((T.length + (pgLine id1 pn1 vn1).length : Nat) : Int)).length from rfl]
    exact List.drop_left _ _
  have htake4 : ((i32Bytes ((T.length + (pgLine id1 pn1 vn1).length : Nat) : Int) ++ T)
      ++ (pgLine id1 pn1 vn1 ++ pgLinePP id2 pn2 vn2 id1)).take 4 =
      i32Bytes ((T.length + (pgLine id1 pn1 vn1).length : Nat) : Int) := by
    rw [List.append_assoc]
    rw [show (4 : Nat) =
      (i32Bytes ((T.length + (pgLine id1 pn1 vn1).length : Nat) : Int)).length from rfl]
    exact List.take_left _ _
  have hul := update_header_length_repack
    ((i32Bytes ((T.length + (pgLine id1 pn1 vn1).length : Nat) : Int) ++ T)
      ++ (pgLine id1 pn1 vn1 ++ pgLinePP id2 pn2 vn2 id1))
    ((T.length + (pgLine id1 pn1 vn1).length : Nat) : Int)
    (by rw [htake4]; exact unpackI32_i32Bytes _ h0 (by omega))
    (by
      rw [hdrop4]
      have := pgLinePP_length_pos id2 pn2 vn2 id1
      simp only [List.length_append]
      push_cast
      omega)
    (by
      rw [hdrop4]
      simp only [List.length_append]
      push_cast
      omega)
  rw [hdrop4] at hul
  have hcast : ((T ++ (pgLine id1 pn1 vn1 ++ pgLinePP id2 pn2 vn2 id1)).length : Int) =
      ((T.length + (pgLine id1 pn1 vn1).length
        + (pgLinePP id2 pn2 vn2 id1).length : Nat) : Int) := by
    simp [List.length_append]
    ring
  rw [hcast] at hul
  have hlen1 := prefix_invariant_append
    ((T.length + (pgLine id1 pn1 vn1).length
      + (pgLinePP id2 pn2 vn2 id1).length : Nat) : Int)
    (T ++ (pgLine id1 pn1 vn1 ++ pgLinePP id2 pn2 vn2 id1))
    (by positivity) (by push_cast; omega)
    (by simp [List.length_append]; ring)
  unfold update_header
  rw [hg, hul]
  exact update_header_length_id _ hlen1

theorem tripleFree_drop (pat l : Bytes) (k : Nat) (h : tripleFree pat l) :
    tripleFree pat (l.drop k) := by
  intro j hj
  rw [List.drop_drop]
  apply h
  rw [List.length_drop] at hj
  omega

/-- C7: on a well-formed raw header with no existing @PG or @CO entry,
applying the provenance rewrite twice with identifiers id1 then id2 yields
a header ending in two appended @PG lines, where the second line carries a
PP field equal to id1 — the identifier of the entry appended by the first
rewrite, i.e. the most recent existing @PG entry at the time of the second
rewrite.  The final conjunct spells the second line out: it is
"@PG\tID:" id2 "\tPN:" pn2 "\tVN:" vn2 "\tPP:" id1 "\n". -/
theorem provenance_chain_second_references_first
    (H id1 pn1 vn1 id2 pn2 vn2 : Bytes)
    (h4 : 4 ≤ H.length)
    (hwf : unpackI32 (H.take 4) = some ((H.drop 4).length : Int))
    (hPG : tripleFree [64, 80, 71] H)
    (hCO : tripleFree [64, 67, 79] H)
    (hne : id1 ≠ []) (halnum : ∀ b ∈ id1, isAlnumByte b = true)
    (h64 : ∀ b ∈ id1 ++ pn1 ++ vn1, b ≠ 64)
    (hIDf : tripleFree [73, 68, 58]
      ([9, 80, 78, 58] ++ (pn1 ++ ([9, 86, 78, 58] ++ (vn1 ++ [10])))))
    (hsz : H.length + (pgLine id1 pn1 vn1).length
      + (pgLinePP id2 pn2 vn2 id1).length < 65536) :
    ∃ R1, update_header H id1 pn1 vn1 none none = .ok R1 ∧
      R1 = i32Bytes (((H.drop 4).length + (pgLine id1 pn1 vn1).length : Nat) : Int)
        ++ (H.drop 4 ++ pgLine id1 pn1 vn1) ∧
      update_header R1 id2 pn2 vn2 none none =
        .ok (i32Bytes (((H.drop 4).length + (pgLine id1 pn1 vn1).length
              + (pgLinePP id2 pn2 vn2 id1).length : Nat) : Int)
          ++ (H.drop 4 ++ (pgLine id1 pn1 vn1 ++ pgLinePP id2 pn2 vn2 id1))) ∧
      pgLinePP id2 pn2 vn2 id1 =
        pgBase id2 pn2 vn2 ++ [9, 80, 80, 58] ++ id1 ++ [10] := by
  have hld : (H.drop 4).length = H.length - 4 := List.length_drop ..
  have first := update_header_fresh H id1 pn1 vn1 h4 hwf hPG hCO
    (by rw [hld]; omega)
  have second := update_header_appended (H.drop 4) id1 pn1 vn1 id2 pn2 vn2
    (tripleFree_drop _ H 4 hPG) (tripleFree_drop _ H 4 hCO)
    h64 hne halnum hIDf (by rw [hld]; omega)
  exact ⟨_, first, rfl, second, rfl⟩

/-- Witness for the provenance chain theorem on the tiny header
[4,0,0,0,72,68,9,120] with fields a/b/c for the first rewrite and d/e/f
for the second. -/
theorem provenance_chain_second_references_first_witness :
    ∃ R1, update_header [4, 0, 0, 0, 72, 68, 9, 120] [97] [98] [99] none none = .ok R1 ∧
      R1 = i32Bytes (((([4, 0, 0, 0, 72, 68, 9, 120] : Bytes).drop 4).length
            + (pgLine [97] [98] [99]).length : Nat) : Int)
        ++ (([4, 0, 0, 0, 72, 68, 9, 120] : Bytes).drop 4 ++ pgLine [97] [98] [99]) ∧
      update_header R1 [100] [101] [102] none none =
        .ok (i32Bytes (((([4, 0, 0, 0, 72, 68, 9, 120] : Bytes).drop 4).length
              + (pgLine [97] [98] [99]).length
              + (pgLinePP [100] [101] [102] [97]).length : Nat) : Int)
          ++ (([4, 0, 0, 0, 72, 68, 9, 120] : Bytes).drop 4
            ++ (pgLine [97] [98] [99] ++ pgLinePP [100] [101] [102] [97]))) ∧
      pgLinePP [100] [101] [102] [97] =
        pgBase [100] [101] [102] ++ [9, 80, 80, 58] ++ [97] ++ [10] :=
  provenance_chain_second_references_first [4, 0, 0, 0, 72, 68, 9, 120]
    [97] [98] [99] [100] [101] [102]
    (by decide) (by decide) (by decide) (by decide) (by decide) (by decide)
    (by decide) (by decide) (by decide)

-- ------------------------------------------------------------------
-- bam.py FileReader and FileWriter
-- ------------------------------------------------------------------

/-- One pull of FileReader._get_alignments: an empty read of the 4-byte
length prefix ends iteration (ok none); a 1-3 byte prefix makes
struct.unpack raise; otherwise block_size further bytes are requested —
read returns at most that many and the source never checks the body
length — and the yielded record is the prefix plus the returned body,
paired here with the remaining stream. -/
def pullAlignment (bs : Bytes) : Except String (Option (Bytes × Bytes)) :=
  match bs with
  | [] => .ok none
  | _ :: _ =>
    let r := pyRead 4 bs
    match unpackI32 r.1 with
    | none => .error "struct.error: unpack requires a buffer of 4 bytes"
    | some block_size =>
      let body := pyRead block_size r.2
      .ok (some (r.1 ++ body.1, body.2))

theorem unpackI32_some_length (l : Bytes) (n : Int) (h : unpackI32 l = some n) :
    l.length = 4 := by
  match l with
  | [b0, b1, b2, b3] => rfl
  | [] => simp [unpackI32] at h
  | [b0] => simp [unpackI32] at h
  | [b0, b1] => simp [unpackI32] at h
  | [b0, b1, b2] => simp [unpackI32] at h
  | b0 :: b1 :: b2 :: b3 :: b4 :: t => simp [unpackI32] at h

theorem pullAlignment_rest_lt (bs rec rest : Bytes)
    (h : pullAlignment bs = .ok (some (rec, rest))) : rest.length < bs.length := by
  match bs with
  | [] => simp [pullAlignment] at h
  | b :: t =>
    unfold pullAlignment at h
    simp only at h
    cases hu : unpackI32 ((pyRead 4 (b :: t)).1) with
    | none => rw [hu] at h; exact absurd h (by simp)
    | some n =>
      rw [hu] at h
      simp only [Except.ok.injEq, Option.some.injEq, Prod.mk.injEq] at h
      obtain ⟨_, hrest⟩ := h
      have h1 := pyRead_snd_length n ((pyRead 4 (b :: t)).2)
      have h2 : ((pyRead 4 (b :: t)).2).length ≤ t.length := by
        unfold pyRead
        simp
      rw [← hrest] at *
      simp only [List.length_cons]
      omega

theorem pullAlignment_split (bs rec rest : Bytes)
    (h : pullAlignment bs = .ok (some (rec, rest))) : rec ++ rest = bs := by
  match bs with
  | [] => simp [pullAlignment] at h
  | b :: t =>
    unfold pullAlignment at h
    simp only at h
    cases hu : unpackI32 ((pyRead 4 (b :: t)).1) with
    | none => rw [hu] at h; exact absurd h (by simp)
    | some n =>
      rw [hu] at h
      simp only [Except.ok.injEq, Option.some.injEq, Prod.mk.injEq] at h
      obtain ⟨hrec, hrest⟩ := h
      rw [← hrec, ← hrest]
      rw [List.append_assoc, pyRead_append, pyRead_append]

/-- Exhausting FileReader._get_alignments: repeated pulls until the
stream ends, propagating any pull error. -/
def readAlignments (bs : Bytes) : Except String (List Bytes) :=
  match hp : pullAlignment bs with
  | .error e => .error e
  | .ok none => .ok []
  | .ok (some (rec, rest)) =>
    match readAlignments rest with
    | .error e => .error e
    | .ok recs => .ok (rec :: recs)
termination_by bs.length
decreasing_by
  exact pullAlignment_rest_lt bs rec rest hp

/-- FileReader._read_header: read a 4-byte length, then that many text
bytes; returns ((raw_header, header text), remaining stream). -/
def read_header (bs : Bytes) : Except String ((Bytes × Bytes) × Bytes) :=
  let r1 := pyRead 4 bs
  match unpackI32 r1.1 with
  | none => .error "struct.error: unpack requires a buffer of 4 bytes"
  | some header_length =>
    let r2 := pyRead header_length r1.2
    .ok ((r1.1 ++ r2.1, r2.1), r2.2)

/-- Python dict insertion order semantics: overwrite the value at an
existing key in place, else append a new entry. -/
def dictInsert (k : Bytes) (v : Int) : List (Bytes × Int) → List (Bytes × Int)
  | [] => [(k, v)]
  | (k2, v2) :: rest =>
    if k2 = k then (k2, v) :: rest else (k2, v2) :: dictInsert k v rest

/-- The per-reference loop of FileReader._read_refs: 4-byte name length,
NUL-terminated name (the final byte is stripped for the dict key), 4-byte
reference length; every raw byte read is appended to the buffer. -/
def readRefsLoop : Nat → Bytes → Bytes → List (Bytes × Int) →
    Except String (Bytes × List (Bytes × Int) × Bytes)
  | 0, bs, buf, refs => .ok (buf, refs, bs)
  | i + 1, bs, buf, refs =>
    let r1 := pyRead 4 bs
    match unpackI32 r1.1 with
    | none => .error "struct.error: unpack requires a buffer of 4 bytes"
    | some l_name =>
      let r2 := pyRead l_name r1.2
      let r3 := pyRead 4 r2.2
      match unpackI32 r3.1 with
      | none => .error "struct.error: unpack requires a buffer of 4 bytes"
      | some ref_length =>
        readRefsLoop i r3.2 (buf ++ r1.1 ++ r2.1 ++ r3.1)
          (dictInsert r2.1.dropLast ref_length refs)

/-- FileReader._read_refs: reference count then the per-reference loop;
a final count check raises ValueError when duplicate names collapsed the
dict (range over a negative count is empty). -/
def read_refs (bs : Bytes) : Except String (Bytes × List (Bytes × Int) × Bytes) :=
  let r0 := pyRead 4 bs
  match unpackI32 r0.1 with
  | none => .error "struct.error: unpack requires a buffer of 4 bytes"
  | some n_ref =>
    match readRefsLoop n_ref.toNat r0.2 r0.1 [] with
    | .error e => .error e
    | .ok (buf, refs, rest) =>
      if n_ref ≠ (refs.length : Int) then
        .error "ValueError: Invalid header reference count"
      else .ok (buf, refs, rest)

/-- The observable outputs of a FileReader whose alignment stream has been
exhausted. -/
structure BamData where
  raw_header : Bytes
  header : Bytes
  raw_refs : Bytes
  refs : List (Bytes × Int)
  records : List Bytes
deriving Repr, DecidableEq

/-- FileReader.__init__ (magic check, header, reference table, sort-order
search — subscripting a failed re.search raises TypeError) followed by
exhausting the alignment generator. -/
def parseBam (bs : Bytes) : Except String BamData :=
  let rm := pyRead 4 bs
  if rm.1 ≠ [66, 65, 77, 1] then
    .error "ValueError: Incorrect start to uncompressed bam"
  else
    match read_header rm.2 with
    | .error e => .error e
    | .ok ((raw_header, header), r1) =>
      match read_refs r1 with
      | .error e => .error e
      | .ok (raw_refs, refs, r2) =>
        match searchSigFollow [83, 79, 58] isAlphaByte raw_header with
        | none => .error "TypeError: NoneType object is not subscriptable"
        | some _ =>
          match readAlignments r2 with
          | .error e => .error e
          | .ok recs => .ok ⟨raw_header, header, raw_refs, refs, recs⟩

/-- The mutable attributes of a FileWriter relevant to header writing
(self.magic is the constant b"BAM\x01"). -/
structure FileWriterState where
  header_written : Bool
  raw_header : Bytes
  raw_refs : Bytes
deriving Repr, DecidableEq

/-- FileWriter.write_header: raises RuntimeError if the header was
already written; its optional arguments are bound to locals that never
reach the output (the write call takes self.magic + self.raw_header +
self.raw_refs); updates the stored header length in place, emits
magic ++ raw_header ++ raw_refs, and marks the header written.  The
returned byte string is what reaches the compressing sink; on error
nothing is emitted and the state is unchanged. -/
def write_header (s : FileWriterState) (raw_header raw_refs : Option Bytes) :
    Except String (FileWriterState × Bytes) :=
  if s.header_written then
    .error "RuntimeError: Header has already been written to file"
  else
    match update_header_length s.raw_header with
    | .error e => .error e
    | .ok h =>
      .ok ({ s with header_written := true, raw_header := h },
        [66, 65, 77, 1] ++ h ++ s.raw_refs)

/-- C8 counterexample: a stream whose only record declares block_size 8
but has just three body bytes remaining yields the short record with NO
error (the ok result), and the subsequent pull on the empty remainder
terminates iteration cleanly; no truncated-input error is raised
anywhere. -/
theorem truncated_body_yields_short_record_without_error :
    pullAlignment [8, 0, 0, 0, 1, 2, 3] = .ok (some ([8, 0, 0, 0, 1, 2, 3], [])) ∧
    ([8, 0, 0, 0, 1, 2, 3] : Bytes).length < 4 + 8 ∧
    pullAlignment [] = .ok none := by
  refine ⟨rfl, by decide, rfl⟩

/-- C8 (amended): pulling when the 4-byte length-prefix read returns zero
bytes terminates iteration without error; pulling when fewer than
block_size bytes remain after the prefix yields — without raising — a
record consisting of the prefix and all remaining bytes, leaving the
stream empty so that the following pull terminates iteration. -/
theorem pull_end_of_stream_and_truncation (pfx rest : Bytes) (n : Int)
    (hp : unpackI32 pfx = some n) (hn : 0 ≤ n)
    (hlen : rest.length < n.toNat) :
    pullAlignment [] = .ok none ∧
    pullAlignment (pfx ++ rest) = .ok (some (pfx ++ rest, [])) := by
  refine ⟨rfl, ?_⟩
  have h4 : pfx.length = 4 := unpackI32_some_length _ _ hp
  obtain ⟨a, b, c, d, hpre⟩ := length_four_shape pfx h4
  subst hpre
  show pullAlignment (a :: (b :: c :: d :: rest)) = _
  unfold pullAlignment
  simp only
  have ht : (pyRead 4 (a :: b :: c :: d :: rest)).1 = [a, b, c, d] := by
    unfold pyRead
    simp
  have hd : (pyRead 4 (a :: b :: c :: d :: rest)).2 = rest := by
    unfold pyRead
    simp
  rw [ht, hd, hp]
  have hbody : pyRead n rest = (rest, []) := by
    unfold pyRead
    rw [if_neg (by omega)]
    rw [List.take_of_length_le (by omega), List.drop_eq_nil_of_le (by omega)]
  simp only
  rw [hbody]

/-- Witness for the amended C8 theorem at the truncated fixture stream. -/
theorem pull_end_of_stream_and_truncation_witness :
    unpackI32 [8, 0, 0, 0] = some 8 ∧
    (pullAlignment [] = .ok none ∧
      pullAlignment ([8, 0, 0, 0] ++ [1, 2, 3]) =
        .ok (some ([8, 0, 0, 0] ++ [1, 2, 3], []))) :=
  ⟨by decide, pull_end_of_stream_and_truncation [8, 0, 0, 0] [1, 2, 3] 8
    (by decide) (by decide) (by decide)⟩

/-- C9: on a writer whose header has not been written and whose stored
header admits the length fix, the first write_header call emits
magic ++ fixed header ++ references and flips header_written; any second
call on the resulting state raises RuntimeError — in the model the error
carries no state change and no output, mirroring that the Python raise
happens before anything is written. -/
theorem write_header_write_once (s : FileWriterState) (a b c d : Option Bytes)
    (hnw : s.header_written = false)
    (h : Bytes) (hul : update_header_length s.raw_header = .ok h) :
    write_header s a b = .ok ({ s with header_written := true, raw_header := h },
        [66, 65, 77, 1] ++ h ++ s.raw_refs) ∧
    (∀ s2 out, write_header s a b = .ok (s2, out) →
      write_header s2 c d = .error "RuntimeError: Header has already been written to file") := by
  have hfirst : write_header s a b =
      .ok ({ s with header_written := true, raw_header := h },
        [66, 65, 77, 1] ++ h ++ s.raw_refs) := by
    unfold write_header
    rw [hnw]
    simp only [Bool.false_eq_true, if_false]
    rw [hul]
  refine ⟨hfirst, fun s2 out h2 => ?_⟩
  rw [hfirst] at h2
  simp only [Except.ok.injEq, Prod.mk.injEq] at h2
  obtain ⟨hs2, _⟩ := h2
  unfold write_header
  rw [← hs2]
  rfl

/-- Witness for write_header_write_once on a tiny writer state. -/
theorem write_header_write_once_witness :
    write_header ⟨false, [0, 0, 0, 0, 120], [5]⟩ none none =
      .ok (⟨true, [1, 0, 0, 0, 120], [5]⟩,
        [66, 65, 77, 1] ++ [1, 0, 0, 0, 120] ++ [5]) ∧
    (∀ s2 out, write_header ⟨false, [0, 0, 0, 0, 120], [5]⟩ none none = .ok (s2, out) →
      write_header s2 none none =
        .error "RuntimeError: Header has already been written to file") :=
  write_header_write_once ⟨false, [0, 0, 0, 0, 120], [5]⟩ none none none none rfl
    [1, 0, 0, 0, 120] (by rfl)

/-- C10: write_header's raw_header and raw_refs arguments never reach the
output: the call is definitionally independent of them, and on success
the emitted bytes are the magic, the stored (length-corrected) header
attribute and the stored reference attribute. -/
theorem write_header_ignores_arguments (s : FileWriterState) (a b a2 b2 : Option Bytes) :
    write_header s a b = write_header s a2 b2 ∧
    (s.header_written = false →
      ∀ s2 out, write_header s a b = .ok (s2, out) →
        update_header_length s.raw_header = .ok s2.raw_header ∧
        s2.raw_refs = s.raw_refs ∧
        out = [66, 65, 77, 1] ++ s2.raw_header ++ s.raw_refs) := by
  refine ⟨rfl, fun hnw s2 out h2 => ?_⟩
  unfold write_header at h2
  rw [hnw] at h2
  simp only [Bool.false_eq_true, if_false] at h2
  cases hul : update_header_length s.raw_header with
  | error e => rw [hul] at h2; exact absurd h2 (by simp)
  | ok hh =>
    rw [hul] at h2
    simp only [Except.ok.injEq, Prod.mk.injEq] at h2
    obtain ⟨hs2, hout⟩ := h2
    rw [← hs2]
    exact ⟨rfl, rfl, hout.symm⟩

/-- Witness for write_header_ignores_arguments: explicit arguments are
supplied and the output still comes from the stored attributes. -/
theorem write_header_ignores_arguments_witness :
    write_header ⟨false, [0, 0, 0, 0, 120], [5]⟩ (some [9, 9]) (some [8, 8]) =
      write_header ⟨false, [0, 0, 0, 0, 120], [5]⟩ none none ∧
    ((⟨false, [0, 0, 0, 0, 120], [5]⟩ : FileWriterState).header_written = false →
      ∀ s2 out, write_header ⟨false, [0, 0, 0, 0, 120], [5]⟩ (some [9, 9]) (some [8, 8]) =
          .ok (s2, out) →
        update_header_length [0, 0, 0, 0, 120] = .ok s2.raw_header ∧
        s2.raw_refs = [5] ∧
        out = [66, 65, 77, 1] ++ s2.raw_header ++ [5]) :=
  write_header_ignores_arguments ⟨false, [0, 0, 0, 0, 120], [5]⟩
    (some [9, 9]) (some [8, 8]) none none

theorem readAlignments_eq_error (bs : Bytes) (e : String)
    (hp : pullAlignment bs = .error e) : readAlignments bs = .error e := by
  rw [readAlignments]
  split
  next e2 h2 => rw [hp] at h2; injection h2 with he; rw [he]
  next h2 => rw [hp] at h2; exact absurd h2 (by simp)
  next rec rest h2 => rw [hp] at h2; exact absurd h2 (by simp)

theorem readAlignments_eq_nil (bs : Bytes)
    (hp : pullAlignment bs = .ok none) : readAlignments bs = .ok [] := by
  rw [readAlignments]
  split
  next e2 h2 => rw [hp] at h2; exact absurd h2 (by simp)
  next h2 => rfl
  next rec rest h2 => rw [hp] at h2; exact absurd h2 (by simp)

theorem readAlignments_eq_cons (bs rec rest : Bytes)
    (hp : pullAlignment bs = .ok (some (rec, rest))) :
    readAlignments bs =
      match readAlignments rest with
      | .error e => .error e
      | .ok recs => .ok (rec :: recs) := by
  rw [readAlignments]
  split
  next e2 h2 => rw [hp] at h2; exact absurd h2 (by simp)
  next h2 => rw [hp] at h2; exact absurd h2 (by simp)
  next rec2 rest2 h2 =>
    rw [hp] at h2
    simp only [Except.ok.injEq, Option.some.injEq, Prod.mk.injEq] at h2
    obtain ⟨h3, h4⟩ := h2
    rw [h3, h4]

theorem pullAlignment_ok_none (bs : Bytes)
    (h : pullAlignment bs = .ok none) : bs = [] := by
  match bs with
  | [] => rfl
  | b :: t =>
    exfalso
    unfold pullAlignment at h
    simp only at h
    cases hu : unpackI32 ((pyRead 4 (b :: t)).1) with
    | none => rw [hu] at h; exact absurd h (by simp)
    | some n => rw [hu] at h; exact absurd h (by simp)

theorem readAlignments_flatten_aux : ∀ (n : Nat) (bs : Bytes), bs.length = n →
    ∀ (recs : List Bytes), readAlignments bs = .ok recs → recs.flatten = bs := by
  intro n
  induction n using Nat.strong_induction_on with
  | _ n ih =>
    intro bs hn recs h
    cases hp : pullAlignment bs with
    | error e =>
      rw [readAlignments_eq_error bs e hp] at h
      exact absurd h (by simp)
    | ok o =>
      cases o with
      | none =>
        rw [readAlignments_eq_nil bs hp] at h
        simp only [Except.ok.injEq] at h
        subst h
        rw [pullAlignment_ok_none bs hp]
        rfl
      | some p =>
        obtain ⟨rec, rest⟩ := p
        rw [readAlignments_eq_cons bs rec rest hp] at h
        cases hrest : readAlignments rest with
        | error e => rw [hrest] at h; exact absurd h (by simp)
        | ok recs2 =>
          rw [hrest] at h
          simp only [Except.ok.injEq] at h
          subst h
          have hlt := pullAlignment_rest_lt bs rec rest hp
          have ihr := ih rest.length (by omega) rest rfl recs2 hrest
          rw [List.flatten_cons, ihr]
          exact pullAlignment_split bs rec rest hp

theorem readAlignments_flatten (bs : Bytes) (recs : List Bytes)
    (h : readAlignments bs = .ok recs) : recs.flatten = bs :=
  readAlignments_flatten_aux bs.length bs rfl recs h

theorem read_header_split (bs rh hd rest : Bytes)
    (hok : read_header bs = .ok ((rh, hd), rest)) :
    rh ++ rest = bs ∧ hd = rh.drop 4 := by
  unfold read_header at hok
  simp only at hok
  cases hu : unpackI32 ((pyRead 4 bs).1) with
  | none => rw [hu] at hok; exact absurd hok (by simp)
  | some n =>
    rw [hu] at hok
    simp only [Except.ok.injEq, Prod.mk.injEq] at hok
    obtain ⟨⟨hrh, hhd⟩, hrest⟩ := hok
    have h4 : ((pyRead 4 bs).1).length = 4 := unpackI32_some_length _ _ hu
    constructor
    · rw [← hrh, ← hrest]
      rw [List.append_assoc, pyRead_append, pyRead_append]
    · rw [← hrh, ← hhd]
      rw [show (4 : Nat) = ((pyRead 4 bs).1).length from h4.symm, List.drop_left]

theorem read_header_prefix_of_rest_ne (bs rh hd rest : Bytes)
    (hok : read_header bs = .ok ((rh, hd), rest)) (hne : rest ≠ []) :
    unpackI32 (rh.take 4) = some ((rh.drop 4).length : Int) := by
  unfold read_header at hok
  simp only at hok
  cases hu : unpackI32 ((pyRead 4 bs).1) with
  | none => rw [hu] at hok; exact absurd hok (by simp)
  | some n =>
    rw [hu] at hok
    simp only [Except.ok.injEq, Prod.mk.injEq] at hok
    obtain ⟨⟨hrh, hhd⟩, hrest⟩ := hok
    have h4 : ((pyRead 4 bs).1).length = 4 := unpackI32_some_length _ _ hu
    have htake : rh.take 4 = (pyRead 4 bs).1 := by
      rw [← hrh, show (4 : Nat) = ((pyRead 4 bs).1).length from h4.symm,
        List.take_left]
    have hdrop : rh.drop 4 = (pyRead n ((pyRead 4 bs).2)).1 := by
      rw [← hrh, show (4 : Nat) = ((pyRead 4 bs).1).length from h4.symm,
        List.drop_left]
    rw [htake, hdrop, hu]
    have hn0 : 0 ≤ n := by
      by_contra hneg
      have hnil : (pyRead n ((pyRead 4 bs).2)).2 = [] := by
        rw [pyRead_neg n (by omega)]
      rw [← hrest] at hne
      exact hne hnil
    have hfull : ((pyRead 4 bs).2).length > n.toNat := by
      by_contra hle
      have hnil : (pyRead n ((pyRead 4 bs).2)).2 = [] := by
        rw [pyRead_nonneg_parts n hn0]
        exact List.drop_eq_nil_of_le (by omega)
      rw [← hrest] at hne
      exact hne hnil
    have hlen : ((pyRead n ((pyRead 4 bs).2)).1).length = n.toNat := by
      rw [pyRead_nonneg_parts n hn0]
      simp only [List.length_take]
      omega
    rw [hlen]
    congr 1
    omega

theorem readRefsLoop_split : ∀ (i : Nat) (bs buf : Bytes) (refs : List (Bytes × Int))
    (buf2 : Bytes) (refs2 : List (Bytes × Int)) (rest : Bytes),
    readRefsLoop i bs buf refs = .ok (buf2, refs2, rest) → buf2 ++ rest = buf ++ bs := by
  intro i
  induction i with
  | zero =>
    intro bs buf refs buf2 refs2 rest h
    unfold readRefsLoop at h
    simp only [Except.ok.injEq, Prod.mk.injEq] at h
    obtain ⟨h1, _, h3⟩ := h
    rw [← h1, ← h3]
  | succ i ih =>
    intro bs buf refs buf2 refs2 rest h
    unfold readRefsLoop at h
    simp only at h
    cases hu1 : unpackI32 ((pyRead 4 bs).1) with
    | none => rw [hu1] at h; exact absurd h (by simp)
    | some l_name =>
      rw [hu1] at h
      simp only at h
      cases hu2 : unpackI32 ((pyRead 4 ((pyRead l_name ((pyRead 4 bs).2)).2)).1) with
      | none => rw [hu2] at h; exact absurd h (by simp)
      | some ref_length =>
        rw [hu2] at h
        have hrec := ih _ _ _ _ _ _ h
        rw [hrec]
        simp only [List.append_assoc]
        rw [pyRead_append]
        rw [pyRead_append]
        rw [pyRead_append]

theorem read_refs_split (bs buf : Bytes) (refs : List (Bytes × Int)) (rest : Bytes)
    (h : read_refs bs = .ok (buf, refs, rest)) : buf ++ rest = bs := by
  unfold read_refs at h
  simp only at h
  cases hu : unpackI32 ((pyRead 4 bs).1) with
  | none => rw [hu] at h; exact absurd h (by simp)
  | some n_ref =>
    rw [hu] at h
    simp only at h
    cases hl : readRefsLoop n_ref.toNat ((pyRead 4 bs).2) ((pyRead 4 bs).1) [] with
    | error e => rw [hl] at h; exact absurd h (by simp)
    | ok w =>
      obtain ⟨buf2, refs2, rest2⟩ := w
      rw [hl] at h
      simp only at h
      split at h
      · exact absurd h (by simp)
      · simp only [Except.ok.injEq, Prod.mk.injEq] at h
        obtain ⟨h1, _, h3⟩ := h
        subst h1
        subst h3
        rw [readRefsLoop_split _ _ _ _ _ _ _ hl]
        exact pyRead_append 4 bs

/-- C1: round trip.  For every byte stream that a FileReader parses
successfully (with every record pulled), a FileWriter loaded with the
reader's raw header and raw reference bytes writes, on write_header,
exactly the magic, raw header and raw reference bytes; appending every
pulled record unmodified reconstructs the original stream byte for byte,
so re-reading yields an identical header text, an identical reference
table, and a record-by-record identical sequence of record byte
strings — indeed the identical BamData. -/
theorem bam_round_trip (bs : Bytes) (d : BamData) (hparse : parseBam bs = .ok d) :
    write_header ⟨false, d.raw_header, d.raw_refs⟩ none none =
      .ok (⟨true, d.raw_header, d.raw_refs⟩,
        [66, 65, 77, 1] ++ d.raw_header ++ d.raw_refs) ∧
    ([66, 65, 77, 1] ++ d.raw_header ++ d.raw_refs) ++ d.records.flatten = bs ∧
    parseBam (([66, 65, 77, 1] ++ d.raw_header ++ d.raw_refs) ++ d.records.flatten) =
      .ok d := by
  have horig := hparse
  unfold parseBam at hparse
  by_cases hm : (pyRead 4 bs).1 ≠ [66, 65, 77, 1]
  · rw [if_pos hm] at hparse
    exact absurd hparse (by simp)
  · rw [if_neg hm] at hparse
    push_neg at hm
    cases hrh : read_header ((pyRead 4 bs).2) with
    | error e => rw [hrh] at hparse; exact absurd hparse (by simp)
    | ok v =>
      obtain ⟨⟨rh, hdr⟩, r1⟩ := v
      rw [hrh] at hparse
      simp only at hparse
      cases hrr : read_refs r1 with
      | error e => rw [hrr] at hparse; exact absurd hparse (by simp)
      | ok w =>
        obtain ⟨buf, refs, r2⟩ := w
        rw [hrr] at hparse
        simp only at hparse
        cases hso : searchSigFollow [83, 79, 58] isAlphaByte rh with
        | none => rw [hso] at hparse; exact absurd hparse (by simp)
        | some k =>
          rw [hso] at hparse
          simp only at hparse
          cases hra : readAlignments r2 with
          | error e => rw [hra] at hparse; exact absurd hparse (by simp)
          | ok recs =>
            rw [hra] at hparse
            simp only [Except.ok.injEq] at hparse
            subst hparse
            have hr1ne : r1 ≠ [] := by
              intro he
              rw [he] at hrr
              rw [show read_refs [] =
                .error "struct.error: unpack requires a buffer of 4 bytes" from rfl] at hrr
              exact absurd hrr (by simp)
            have hpref := read_header_prefix_of_rest_ne _ _ _ _ hrh hr1ne
            have hsp1 := read_header_split _ _ _ _ hrh
            have hsp2 := read_refs_split _ _ _ _ hrr
            have hsp3 := readAlignments_flatten _ _ hra
            have hbytes : ([66, 65, 77, 1] ++ rh ++ buf)
                ++ recs.flatten = bs := by
              rw [hsp3]
              rw [← pyRead_append 4 bs, ← hm]
              rw [← hsp1.1, ← hsp2]
              simp [List.append_assoc]
            refine ⟨?_, hbytes, ?_⟩
            · unfold write_header
              simp only [Bool.false_eq_true, if_false]
              rw [update_header_length_id rh hpref]
            · rw [hbytes]
              exact horig

/-- Witness for the round-trip theorem on a miniature valid stream:
magic, a four-byte header text "SO:x", one reference ("A", length 100)
and one eight-byte record. -/
theorem bam_round_trip_witness :
    parseBam [66, 65, 77, 1, 4, 0, 0, 0, 83, 79, 58, 120, 1, 0, 0, 0,
        2, 0, 0, 0, 65, 0, 100, 0, 0, 0, 4, 0, 0, 0, 1, 2, 3, 4] =
      .ok ⟨[4, 0, 0, 0, 83, 79, 58, 120], [83, 79, 58, 120],
        [1, 0, 0, 0, 2, 0, 0, 0, 65, 0, 100, 0, 0, 0], [([65], 100)],
        [[4, 0, 0, 0, 1, 2, 3, 4]]⟩ ∧
    (write_header ⟨false, [4, 0, 0, 0, 83, 79, 58, 120],
        [1, 0, 0, 0, 2, 0, 0, 0, 65, 0, 100, 0, 0, 0]⟩ none none =
      .ok (⟨true, [4, 0, 0, 0, 83, 79, 58, 120],
          [1, 0, 0, 0, 2, 0, 0, 0, 65, 0, 100, 0, 0, 0]⟩,
        [66, 65, 77, 1] ++ [4, 0, 0, 0, 83, 79, 58, 120]
          ++ [1, 0, 0, 0, 2, 0, 0, 0, 65, 0, 100, 0, 0, 0]) ∧
    ([66, 65, 77, 1] ++ [4, 0, 0, 0, 83, 79, 58, 120]
        ++ [1, 0, 0, 0, 2, 0, 0, 0, 65, 0, 100, 0, 0, 0])
        ++ ([[4, 0, 0, 0, 1, 2, 3, 4]] : List Bytes).flatten =
      [66, 65, 77, 1, 4, 0, 0, 0, 83, 79, 58, 120, 1, 0, 0, 0,
        2, 0, 0, 0, 65, 0, 100, 0, 0, 0, 4, 0, 0, 0, 1, 2, 3, 4] ∧
    parseBam (([66, 65, 77, 1] ++ [4, 0, 0, 0, 83, 79, 58, 120]
        ++ [1, 0, 0, 0, 2, 0, 0, 0, 65, 0, 100, 0, 0, 0])
        ++ ([[4, 0, 0, 0, 1, 2, 3, 4]] : List Bytes).flatten) =
      .ok ⟨[4, 0, 0, 0, 83, 79, 58, 120], [83, 79, 58, 120],
        [1, 0, 0, 0, 2, 0, 0, 0, 65, 0, 100, 0, 0, 0], [([65], 100)],
        [[4, 0, 0, 0, 1, 2, 3, 4]]⟩) := by
  have h1 : pullAlignment [4, 0, 0, 0, 1, 2, 3, 4] =
      .ok (some ([4, 0, 0, 0, 1, 2, 3, 4], [])) := rfl
  have h2 : readAlignments [4, 0, 0, 0, 1, 2, 3, 4] = .ok [[4, 0, 0, 0, 1, 2, 3, 4]] := by
    rw [readAlignments_eq_cons _ _ _ h1, readAlignments_eq_nil [] rfl]
  have hparse : parseBam [66, 65, 77, 1, 4, 0, 0, 0, 83, 79, 58, 120, 1, 0, 0, 0,
      2, 0, 0, 0, 65, 0, 100, 0, 0, 0, 4, 0, 0, 0, 1, 2, 3, 4] =
      .ok ⟨[4, 0, 0, 0, 83, 79, 58, 120], [83, 79, 58, 120],
        [1, 0, 0, 0, 2, 0, 0, 0, 65, 0, 100, 0, 0, 0], [([65], 100)],
        [[4, 0, 0, 0, 1, 2, 3, 4]]⟩ := by
    unfold parseBam
    rw [if_neg (by decide)]
    rw [show read_header ((pyRead 4 [66, 65, 77, 1, 4, 0, 0, 0, 83, 79, 58, 120,
        1, 0, 0, 0, 2, 0, 0, 0, 65, 0, 100, 0, 0, 0, 4, 0, 0, 0, 1, 2, 3, 4]).2) =
      .ok (([4, 0, 0, 0, 83, 79, 58, 120], [83, 79, 58, 120]),
        [1, 0, 0, 0, 2, 0, 0, 0, 65, 0, 100, 0, 0, 0, 4, 0, 0, 0, 1, 2, 3, 4]) from rfl]
    simp only
    rw [show read_refs [1, 0, 0, 0, 2, 0, 0, 0, 65, 0, 100, 0, 0, 0,
        4, 0, 0, 0, 1, 2, 3, 4] =
      .ok ([1, 0, 0, 0, 2, 0, 0, 0, 65, 0, 100, 0, 0, 0], [([65], 100)],
        [4, 0, 0, 0, 1, 2, 3, 4]) from rfl]
    simp only
    rw [show searchSigFollow [83, 79, 58] isAlphaByte [4, 0, 0, 0, 83, 79, 58, 120] =
      some 4 from rfl]
    simp only
    rw [h2]
  exact ⟨hparse, bam_round_trip _ _ hparse⟩
